import Mathlib

/-!
Verification development for the comments controller of the editor
(src/vs/workbench/contrib/comments/browser/commentsController.ts).

The development shallowly embeds the range reconciliation engine
(CommentingRangeDecorator), the thread reconciliation engine
(CommentController, onDidUpdateCommentThreads handler) and the draft cache
(removeCommentWidgetsAndStoreCache / setComments) as executable Lean
functions, and proves the specified properties about them.

Lines and columns are modelled as unbounded integers (the source uses
JavaScript numbers holding 1-based line and column indices; no arithmetic
here can overflow a double). External collaborators (the editor model, the
marker facility, glyph decorations) are passed in as explicit parameters:
the result of editor.getDecorationsInRange glyph probing becomes a
predicate on ranges, and the per-marker current-range query
(getActiveRange) becomes a stored Option Range field.
-/

namespace Comments

/-- Modelled from the spec: the Range value of the editor core
(vs/editor/common/core/range, not under src): a claimed region given by
start and end document positions with 1-based line numbers. -/
structure Range where
  startLineNumber : Int
  startColumn : Int
  endLineNumber : Int
  endColumn : Int
deriving DecidableEq, Repr

/-- Modelled from the spec: the Range constructor of the editor core.  When
the given start position lies after the end position the constructor swaps
the two endpoints, so every constructed Range is normalized. -/
def mkRange (sl sc el ec : Int) : Range :=
  if sl > el ∨ (sl = el ∧ sc > ec) then ⟨el, ec, sl, sc⟩ else ⟨sl, sc, el, ec⟩

/-- A range whose start position does not lie after its end position. -/
def Range.isNormalized (r : Range) : Prop :=
  r.startLineNumber < r.endLineNumber ∨
    (r.startLineNumber = r.endLineNumber ∧ r.startColumn ≤ r.endColumn)

instance (r : Range) : Decidable r.isNormalized := by
  unfold Range.isNormalized; infer_instance

/-- Modelled from the spec: Range.collapseToStart of the editor core. -/
def Range.collapseToStart (r : Range) : Range :=
  ⟨r.startLineNumber, r.startColumn, r.startLineNumber, r.startColumn⟩

/-- Modelled from the spec: Range.intersectRanges of the editor core,
intersection of two ranges in document coordinates; an empty intersection
is reported as none. -/
def intersectRanges (a b : Range) : Option Range :=
  let isl := if a.startLineNumber < b.startLineNumber then b.startLineNumber
             else a.startLineNumber
  let isc := if a.startLineNumber < b.startLineNumber then b.startColumn
             else if a.startLineNumber = b.startLineNumber then
               max a.startColumn b.startColumn
             else a.startColumn
  let iel := if b.endLineNumber < a.endLineNumber then b.endLineNumber
             else a.endLineNumber
  let iec := if b.endLineNumber < a.endLineNumber then b.endColumn
             else if a.endLineNumber = b.endLineNumber then
               min a.endColumn b.endColumn
             else a.endColumn
  if iel < isl then none
  else if isl = iel ∧ iec < isc then none
  else some ⟨isl, isc, iel, iec⟩

/-- Modelled from the spec: Range.plusRange of the editor core, the
bounding union of two ranges. -/
def plusRange (a b : Range) : Range :=
  let sl := if b.startLineNumber < a.startLineNumber then b.startLineNumber
            else if b.startLineNumber = a.startLineNumber then b.startLineNumber
            else a.startLineNumber
  let sc := if b.startLineNumber < a.startLineNumber then b.startColumn
            else if b.startLineNumber = a.startLineNumber then
              min b.startColumn a.startColumn
            else a.startColumn
  let el := if b.endLineNumber > a.endLineNumber then b.endLineNumber
            else if b.endLineNumber = a.endLineNumber then b.endLineNumber
            else a.endLineNumber
  let ec := if b.endLineNumber > a.endLineNumber then b.endColumn
            else if b.endLineNumber = a.endLineNumber then
              max b.endColumn a.endColumn
            else a.endColumn
  mkRange sl sc el ec

/-- Modelled from the spec: Range.equalsRange of the editor core on
possibly-absent ranges. -/
def equalsRange (a b : Option Range) : Bool :=
  match a, b with
  | none, none => true
  | some a, some b => a == b
  | _, _ => false

/-- The set of (1-based) line numbers a range covers. -/
def linesOf (r : Range) : Finset Int := Finset.Icc r.startLineNumber r.endLineNumber

/-- The three ModelDecorationOptions created by the CommentingRangeDecorator
constructor: the always-visible plain gutter glyph, the hover/cursor
emphasis glyph and the multiline selection emphasis glyph. -/
inductive DecorationOptionsKind
  | plain
  | hover
  | multiline
deriving DecidableEq, Repr

/-- CommentingRangeDecoration: one emitted sub-range claim.  The field
range holds the constructor argument; options is which of the three
decoration option objects was used; crInfo is an identity token for the
commentingRangesInfo object the claim came from (the source compares these
by reference); activeRange is what getActiveRange currently answers, that
is, the live marker range for the decoration id, or none when the
decoration has no id or the marker is gone. -/
structure CommentingRangeDecoration where
  ownerId : String
  extensionId : Option String
  label : Option String
  range : Range
  options : DecorationOptionsKind
  crInfo : Nat
  isHover : Bool
  activeRange : Option Range
deriving DecidableEq, Repr

/-- The range getter of CommentingRangeDecoration: the decoration submitted
to the editor keeps only the start and end line numbers of the original
range, with both columns set to 1. -/
def CommentingRangeDecoration.deltaRange (d : CommentingRangeDecoration) : Range :=
  ⟨d.range.startLineNumber, 1, d.range.endLineNumber, 1⟩

/-- Constructor call for CommentingRangeDecoration inside the decorator
(the decoration id, hence activeRange, is only assigned later by the
deltaDecorations batch). -/
def mkDecoration (owner : String) (ext lbl : Option String) (cr : Nat)
    (r : Range) (opts : DecorationOptionsKind) (hover : Bool) :
    CommentingRangeDecoration :=
  ⟨owner, ext, lbl, r, opts, cr, hover, none⟩

/-- CommentingRanges of one provider: the ranges snapshot plus whether the
provider accepts file-level comments; crId is the identity token of the
underlying object. -/
structure CommentingRanges where
  crId : Nat
  ranges : List Range
  fileComments : Bool
deriving DecidableEq, Repr

/-- ICommentInfo restricted to the fields the decorator reads. -/
structure ICommentInfo where
  owner : String
  extensionId : Option String
  label : Option String
  commentingRanges : CommentingRanges
deriving DecidableEq, Repr

/-- The intersection of the rebuilt range object with the selection, as
computed at the top of the per-range loop body of _doUpdate. -/
def intersectionOf (range : Range) (selectionRange : Option Range) : Option Range :=
  match selectionRange with
  | some s =>
      intersectRanges
        (mkRange range.startLineNumber range.startColumn
          range.endLineNumber range.endColumn) s
  | none => none

/-- The else-if chain of the per-range loop body of _doUpdate: the
single-emphasis-line split when the emphasis line falls inside the range,
otherwise the unchanged plain emission.  lineHasThread models the
_lineHasThread editor probe (getDecorationsInRange finding a comment glyph
decoration). -/
def doUpdateSingleOrPlain (lineHasThread : Range → Bool) (owner : String)
    (ext lbl : Option String) (cr : Nat) (emphasisLine : Int) (range : Range) :
    List CommentingRangeDecoration :=
  let rangeObject := mkRange range.startLineNumber range.startColumn
    range.endLineNumber range.endColumn
  if rangeObject.startLineNumber ≤ emphasisLine ∧
      emphasisLine ≤ rangeObject.endLineNumber then
    (if rangeObject.startLineNumber < emphasisLine then
      [mkDecoration owner ext lbl cr
        (mkRange range.startLineNumber 1 (emphasisLine - 1) 1) .plain true]
    else []) ++
    (let emphasisRange := mkRange emphasisLine 1 emphasisLine 1
     if lineHasThread emphasisRange then []
     else [mkDecoration owner ext lbl cr emphasisRange .hover true]) ++
    (if emphasisLine < rangeObject.endLineNumber then
      [mkDecoration owner ext lbl cr
        (mkRange (emphasisLine + 1) 1 range.endLineNumber 1) .plain true]
    else [])
  else
    [mkDecoration owner ext lbl cr range .plain false]

/-- The one-line emphasis carve-out of the multiline branch: the collapsed
start of the intersection when the emphasis line is at or before its start,
else the one-line range at the intersection end. -/
def multilineEmphasisRange (emphasisLine : Int) (isr : Range) : Range :=
  if emphasisLine ≤ isr.startLineNumber then isr.collapseToStart
  else mkRange isr.endLineNumber 1 isr.endLineNumber 1

/-- The remaining multiline selection sub-range of the multiline branch. -/
def multilineSelectionRange (emphasisLine : Int) (isr : Range) : Range :=
  if emphasisLine ≤ isr.startLineNumber then
    mkRange (isr.startLineNumber + 1) 1 isr.endLineNumber 1
  else mkRange isr.startLineNumber 1 (isr.endLineNumber - 1) 1

/-- The decorations pushed by the multiline branch of the per-range loop
body, in emission order: selection, emphasis if no glyph, before, after. -/
def multilinePieces (lineHasThread : Range → Bool) (owner : String)
    (ext lbl : Option String) (cr : Nat) (emphasisLine : Int)
    (range rangeObject isr : Range) : List CommentingRangeDecoration :=
  let intersectingEmphasisRange := multilineEmphasisRange emphasisLine isr
  let intersectingSelectionRange := multilineSelectionRange emphasisLine isr
  let beforeRangeEndLine :=
    min intersectingEmphasisRange.startLineNumber
      intersectingSelectionRange.startLineNumber - 1
  let afterRangeStartLine :=
    max intersectingEmphasisRange.endLineNumber
      intersectingSelectionRange.endLineNumber + 1
  [mkDecoration owner ext lbl cr intersectingSelectionRange .multiline true] ++
  (if lineHasThread intersectingEmphasisRange then []
   else [mkDecoration owner ext lbl cr intersectingEmphasisRange .hover true]) ++
  (if rangeObject.startLineNumber ≤ beforeRangeEndLine then
    [mkDecoration owner ext lbl cr
      (mkRange range.startLineNumber 1 beforeRangeEndLine 1) .plain true]
  else []) ++
  (if afterRangeStartLine ≤ rangeObject.endLineNumber then
    [mkDecoration owner ext lbl cr
      (mkRange afterRangeStartLine 1 range.endLineNumber 1) .plain true]
  else [])

/-- The per-range loop body of _doUpdate for one provider range: the
multiline-selection split when a non-empty selection intersects the range
(and the shared region is not a single line equal to the emphasis line),
else the single-emphasis-line split or the plain emission. -/
def doUpdateRange (lineHasThread : Range → Bool) (owner : String)
    (ext lbl : Option String) (cr : Nat) (emphasisLine : Int)
    (selectionRange : Option Range) (range : Range) :
    List CommentingRangeDecoration :=
  match intersectionOf range selectionRange with
  | some isr =>
    if 0 ≤ emphasisLine ∧
        ¬(isr.startLineNumber = isr.endLineNumber ∧
          emphasisLine = isr.startLineNumber) then
      multilinePieces lineHasThread owner ext lbl cr emphasisLine range
        (mkRange range.startLineNumber range.startColumn
          range.endLineNumber range.endColumn) isr
    else
      doUpdateSingleOrPlain lineHasThread owner ext lbl cr emphasisLine range
  | none =>
      doUpdateSingleOrPlain lineHasThread owner ext lbl cr emphasisLine range

/-- The whole recompute of _doUpdate: decorations are emitted per provider
info, per provider range, in order.  The effective emphasis line (after
the lastSelectionCursor override at the top of _doUpdate) and the selection
are inputs. -/
def doUpdate (lineHasThread : Range → Bool) (commentInfos : List ICommentInfo)
    (emphasisLine : Int) (selectionRange : Option Range) :
    List CommentingRangeDecoration :=
  commentInfos.flatMap fun info =>
    info.commentingRanges.ranges.flatMap
      (doUpdateRange lineHasThread info.owner info.extensionId info.label
        info.commentingRanges.crId emphasisLine selectionRange)

/-- The union of the line sets of a decoration list (using the constructor
argument range of each decoration). -/
def emittedLines (ds : List CommentingRangeDecoration) : Finset Int :=
  ds.foldr (fun d s => linesOf d.range ∪ s) ∅

/-- Pairwise non-overlap by line of the emitted decoration ranges. -/
def pairwiseDisjointLines (ds : List CommentingRangeDecoration) : Prop :=
  ds.Pairwise fun d1 d2 => Disjoint (linesOf d1.range) (linesOf d2.range)

instance (ds : List CommentingRangeDecoration) :
    Decidable (pairwiseDisjointLines ds) := by
  unfold pairwiseDisjointLines; infer_instance

/-- The single-line range that the branch taken by the per-range loop body
probes with _lineHasThread (none when the plain branch emits the range
unchanged and no probe happens). -/
def emphasisTestRange (emphasisLine : Int) (selectionRange : Option Range)
    (range : Range) : Option Range :=
  let rangeObject := mkRange range.startLineNumber range.startColumn
    range.endLineNumber range.endColumn
  match intersectionOf range selectionRange with
  | some isr =>
    if 0 ≤ emphasisLine ∧
        ¬(isr.startLineNumber = isr.endLineNumber ∧
          emphasisLine = isr.startLineNumber) then
      some (multilineEmphasisRange emphasisLine isr)
    else if rangeObject.startLineNumber ≤ emphasisLine ∧
        emphasisLine ≤ rangeObject.endLineNumber then
      some (mkRange emphasisLine 1 emphasisLine 1)
    else none
  | none =>
    if rangeObject.startLineNumber ≤ emphasisLine ∧
        emphasisLine ≤ rangeObject.endLineNumber then
      some (mkRange emphasisLine 1 emphasisLine 1)
    else none

/-- The lines (at most one) whose emphasis sub-range the recompute
suppresses because a comment-thread glyph already occupies them. -/
def suppressedLines (lineHasThread : Range → Bool) (emphasisLine : Int)
    (selectionRange : Option Range) (range : Range) : Finset Int :=
  match emphasisTestRange emphasisLine selectionRange range with
  | some t => if lineHasThread t then linesOf t else ∅
  | none => ∅

/-! Basic lemmas about the range model. -/

theorem mkRange_of_le {sl sc el ec : Int}
    (h : sl < el ∨ (sl = el ∧ sc ≤ ec)) :
    mkRange sl sc el ec = ⟨sl, sc, el, ec⟩ := by
  unfold mkRange
  rw [if_neg]
  omega

theorem mkRange_line (sl el : Int) (h : sl ≤ el) :
    mkRange sl 1 el 1 = ⟨sl, 1, el, 1⟩ :=
  mkRange_of_le (by omega)

theorem mkRange_eq_self {r : Range} (h : r.isNormalized) :
    mkRange r.startLineNumber r.startColumn r.endLineNumber r.endColumn = r := by
  obtain ⟨sl, sc, el, ec⟩ := r
  exact mkRange_of_le h

theorem intersectRanges_bounds {a b r : Range}
    (h : intersectRanges a b = some r) :
    a.startLineNumber ≤ r.startLineNumber ∧
    r.endLineNumber ≤ a.endLineNumber ∧
    r.startLineNumber ≤ r.endLineNumber := by
  unfold intersectRanges at h
  dsimp only at h
  split_ifs at h <;>
    first
    | exact Option.noConfusion h
    | (rw [Option.some.injEq] at h; subst h; dsimp only; omega)

@[simp]
theorem emittedLines_nil : emittedLines [] = ∅ := rfl

@[simp]
theorem emittedLines_cons (d : CommentingRangeDecoration)
    (ds : List CommentingRangeDecoration) :
    emittedLines (d :: ds) = linesOf d.range ∪ emittedLines ds := rfl

theorem emittedLines_append (l1 l2 : List CommentingRangeDecoration) :
    emittedLines (l1 ++ l2) = emittedLines l1 ∪ emittedLines l2 := by
  induction l1 with
  | nil => simp
  | cons d l ih => simp [ih, Finset.union_assoc]

theorem mem_ite_empty {c : Prop} [Decidable c] {s : Finset Int} {x : Int} :
    (x ∈ if c then s else (∅ : Finset Int)) ↔ c ∧ x ∈ s := by
  split <;> simp_all

theorem disjoint_Icc_iff {a b c d : Int} :
    Disjoint (Finset.Icc a b) (Finset.Icc c d) ↔
      b < a ∨ d < c ∨ b < c ∨ d < a := by
  rw [Finset.disjoint_left]
  constructor
  · intro h
    by_contra hc
    push_neg at hc
    have h1 : max a c ∈ Finset.Icc a b := Finset.mem_Icc.mpr (by omega)
    have h2 : max a c ∈ Finset.Icc c d := Finset.mem_Icc.mpr (by omega)
    exact h h1 h2
  · intro h x hx hy
    rw [Finset.mem_Icc] at hx hy
    omega

/-- Exact tiling of the single-emphasis-line and plain branches: the lines
of the emitted sub-ranges are the lines of the original range minus the
emphasis line when a thread glyph suppresses it, and the sub-ranges are
pairwise non-overlapping by line. -/
theorem singleOrPlain_spec (lht : Range → Bool) (owner : String)
    (ext lbl : Option String) (cr : Nat) (emphasisLine : Int) (range : Range)
    (hR : range.isNormalized) :
    emittedLines (doUpdateSingleOrPlain lht owner ext lbl cr emphasisLine range) =
      linesOf range \
        (if (range.startLineNumber ≤ emphasisLine ∧
              emphasisLine ≤ range.endLineNumber) ∧
            lht (mkRange emphasisLine 1 emphasisLine 1) = true
         then linesOf (mkRange emphasisLine 1 emphasisLine 1) else ∅) ∧
    pairwiseDisjointLines
      (doUpdateSingleOrPlain lht owner ext lbl cr emphasisLine range) := by
  have hro : mkRange range.startLineNumber range.startColumn
      range.endLineNumber range.endColumn = range := mkRange_eq_self hR
  have hrange : range.startLineNumber ≤ range.endLineNumber := by
    rcases hR with h | ⟨h, _⟩ <;> omega
  have hemph : mkRange emphasisLine 1 emphasisLine 1 =
      ⟨emphasisLine, 1, emphasisLine, 1⟩ := mkRange_line _ _ le_rfl
  simp only [doUpdateSingleOrPlain]
  rw [hro, hemph]
  by_cases hin : range.startLineNumber ≤ emphasisLine ∧
      emphasisLine ≤ range.endLineNumber
  · rw [if_pos hin]
    by_cases hlht : lht ⟨emphasisLine, 1, emphasisLine, 1⟩ = true
    · have hcond : (range.startLineNumber ≤ emphasisLine ∧
          emphasisLine ≤ range.endLineNumber) ∧
          lht ⟨emphasisLine, 1, emphasisLine, 1⟩ = true := ⟨hin, hlht⟩
      rw [if_pos hlht, if_pos hcond]
      by_cases hbef : range.startLineNumber < emphasisLine
      · have e1 : mkRange range.startLineNumber 1 (emphasisLine - 1) 1 =
            ⟨range.startLineNumber, 1, emphasisLine - 1, 1⟩ :=
          mkRange_line _ _ (by omega)
        rw [if_pos hbef, e1]
        by_cases haft : emphasisLine < range.endLineNumber
        · have e2 : mkRange (emphasisLine + 1) 1 range.endLineNumber 1 =
              ⟨emphasisLine + 1, 1, range.endLineNumber, 1⟩ :=
            mkRange_line _ _ (by omega)
          rw [if_pos haft, e2]
          constructor
          · ext x
            simp only [emittedLines_append, emittedLines_cons, emittedLines_nil,
              mkDecoration, linesOf, Finset.mem_union, Finset.mem_sdiff,
              Finset.mem_Icc, Finset.union_empty, Finset.not_mem_empty]
            omega
          · simp only [pairwiseDisjointLines, mkDecoration, List.append_nil,
              List.nil_append, List.cons_append, List.pairwise_cons,
              List.mem_cons, List.mem_singleton, List.not_mem_nil,
              linesOf, disjoint_Icc_iff]
            simp <;> omega
        · rw [if_neg haft]
          constructor
          · ext x
            simp only [emittedLines_append, emittedLines_cons, emittedLines_nil,
              mkDecoration, linesOf, Finset.mem_union, Finset.mem_sdiff,
              Finset.mem_Icc, Finset.union_empty, Finset.not_mem_empty]
            omega
          · simp only [pairwiseDisjointLines, mkDecoration, List.append_nil,
              List.nil_append, List.cons_append, List.pairwise_cons,
              List.mem_cons, List.mem_singleton, List.not_mem_nil,
              linesOf, disjoint_Icc_iff]
            simp <;> omega
      · rw [if_neg hbef]
        by_cases haft : emphasisLine < range.endLineNumber
        · have e2 : mkRange (emphasisLine + 1) 1 range.endLineNumber 1 =
              ⟨emphasisLine + 1, 1, range.endLineNumber, 1⟩ :=
            mkRange_line _ _ (by omega)
          rw [if_pos haft, e2]
          constructor
          · ext x
            simp only [emittedLines_append, emittedLines_cons, emittedLines_nil,
              mkDecoration, linesOf, Finset.mem_union, Finset.mem_sdiff,
              Finset.mem_Icc, Finset.union_empty, Finset.not_mem_empty,
              List.nil_append]
            omega
          · simp only [pairwiseDisjointLines, mkDecoration, List.append_nil,
              List.nil_append, List.cons_append, List.pairwise_cons,
              List.mem_cons, List.mem_singleton, List.not_mem_nil,
              linesOf, disjoint_Icc_iff]
            simp <;> omega
        · rw [if_neg haft]
          constructor
          · ext x
            simp only [emittedLines_append, emittedLines_cons, emittedLines_nil,
              mkDecoration, linesOf, Finset.mem_union, Finset.mem_sdiff,
              Finset.mem_Icc, Finset.union_empty, Finset.not_mem_empty,
              List.nil_append, List.append_nil, false_iff]
            omega
          · simp [pairwiseDisjointLines]
    · have hncond : ¬((range.startLineNumber ≤ emphasisLine ∧
          emphasisLine ≤ range.endLineNumber) ∧
          lht ⟨emphasisLine, 1, emphasisLine, 1⟩ = true) := fun hc => hlht hc.2
      rw [if_neg hlht, if_neg hncond]
      by_cases hbef : range.startLineNumber < emphasisLine
      · have e1 : mkRange range.startLineNumber 1 (emphasisLine - 1) 1 =
            ⟨range.startLineNumber, 1, emphasisLine - 1, 1⟩ :=
          mkRange_line _ _ (by omega)
        rw [if_pos hbef, e1]
        by_cases haft : emphasisLine < range.endLineNumber
        · have e2 : mkRange (emphasisLine + 1) 1 range.endLineNumber 1 =
              ⟨emphasisLine + 1, 1, range.endLineNumber, 1⟩ :=
            mkRange_line _ _ (by omega)
          rw [if_pos haft, e2]
          constructor
          · ext x
            simp only [emittedLines_append, emittedLines_cons, emittedLines_nil,
              mkDecoration, linesOf, Finset.mem_union, Finset.mem_sdiff,
              Finset.mem_Icc, Finset.union_empty, Finset.not_mem_empty,
              Finset.sdiff_empty]
            omega
          · simp only [pairwiseDisjointLines, mkDecoration, List.append_nil,
              List.nil_append, List.cons_append, List.pairwise_cons,
              List.mem_cons, List.mem_singleton, List.not_mem_nil,
              linesOf, disjoint_Icc_iff]
            simp <;> omega
        · rw [if_neg haft]
          constructor
          · ext x
            simp only [emittedLines_append, emittedLines_cons, emittedLines_nil,
              mkDecoration, linesOf, Finset.mem_union, Finset.mem_sdiff,
              Finset.mem_Icc, Finset.union_empty, Finset.not_mem_empty,
              Finset.sdiff_empty, List.append_nil]
            omega
          · simp only [pairwiseDisjointLines, mkDecoration, List.append_nil,
              List.nil_append, List.cons_append, List.pairwise_cons,
              List.mem_cons, List.mem_singleton, List.not_mem_nil,
              linesOf, disjoint_Icc_iff]
            simp <;> omega
      · rw [if_neg hbef]
        by_cases haft : emphasisLine < range.endLineNumber
        · have e2 : mkRange (emphasisLine + 1) 1 range.endLineNumber 1 =
              ⟨emphasisLine + 1, 1, range.endLineNumber, 1⟩ :=
            mkRange_line _ _ (by omega)
          rw [if_pos haft, e2]
          constructor
          · ext x
            simp only [emittedLines_append, emittedLines_cons, emittedLines_nil,
              mkDecoration, linesOf, Finset.mem_union, Finset.mem_sdiff,
              Finset.mem_Icc, Finset.union_empty, Finset.not_mem_empty,
              Finset.sdiff_empty, List.nil_append]
            omega
          · simp only [pairwiseDisjointLines, mkDecoration, List.append_nil,
              List.nil_append, List.cons_append, List.pairwise_cons,
              List.mem_cons, List.mem_singleton, List.not_mem_nil,
              linesOf, disjoint_Icc_iff]
            simp <;> omega
        · rw [if_neg haft]
          constructor
          · ext x
            simp only [emittedLines_append, emittedLines_cons, emittedLines_nil,
              mkDecoration, linesOf, Finset.mem_union, Finset.mem_sdiff,
              Finset.mem_Icc, Finset.union_empty, Finset.not_mem_empty,
              Finset.sdiff_empty, List.nil_append, List.append_nil]
            omega
          · simp [pairwiseDisjointLines]
  · have hncond2 : ¬((range.startLineNumber ≤ emphasisLine ∧
        emphasisLine ≤ range.endLineNumber) ∧
        lht (⟨emphasisLine, 1, emphasisLine, 1⟩ : Range) = true) :=
      fun hc => hin hc.1
    rw [if_neg hin, if_neg hncond2]
    constructor
    · ext x
      simp only [emittedLines_cons, emittedLines_nil, mkDecoration, linesOf,
        Finset.mem_union, Finset.mem_sdiff, Finset.mem_Icc,
        Finset.union_empty, Finset.not_mem_empty, Finset.sdiff_empty]
    · simp [pairwiseDisjointLines]

/-- Lines of the carved-out emphasis sub-range and the remaining multiline
selection sub-range in the multiline branch, together with the before and
after plain sub-ranges, exactly tile the original range (minus a
glyph-suppressed emphasis line), pairwise disjointly, provided the
selection intersection spans at least two lines. -/
theorem multiline_spec (lht : Range → Bool) (owner : String)
    (ext lbl : Option String) (cr : Nat) (emphasisLine : Int)
    (range isr : Range) (hrange : range.startLineNumber ≤ range.endLineNumber)
    (his : isr.startLineNumber < isr.endLineNumber)
    (hlo : range.startLineNumber ≤ isr.startLineNumber)
    (hhi : isr.endLineNumber ≤ range.endLineNumber) :
    (emittedLines (multilinePieces lht owner ext lbl cr emphasisLine range range isr) =
      linesOf range \
        (if lht (multilineEmphasisRange emphasisLine isr) = true
         then linesOf (multilineEmphasisRange emphasisLine isr) else ∅)) ∧
    pairwiseDisjointLines
      (multilinePieces lht owner ext lbl cr emphasisLine range range isr) := by
  unfold multilinePieces multilineEmphasisRange multilineSelectionRange
  by_cases hA : emphasisLine ≤ isr.startLineNumber
  · rw [if_pos hA, if_pos hA]
    have em : mkRange (isr.startLineNumber + 1) 1 isr.endLineNumber 1 =
        ⟨isr.startLineNumber + 1, 1, isr.endLineNumber, 1⟩ :=
      mkRange_line _ _ (by omega)
    rw [em]
    dsimp only [Range.collapseToStart]
    have hmin : min isr.startLineNumber (isr.startLineNumber + 1) =
        isr.startLineNumber := min_eq_left (by omega)
    have hmax : max isr.startLineNumber isr.endLineNumber =
        isr.endLineNumber := max_eq_right (by omega)
    rw [hmin, hmax]
    by_cases hlht : lht ⟨isr.startLineNumber, isr.startColumn,
        isr.startLineNumber, isr.startColumn⟩ = true
    · rw [if_pos hlht, if_pos hlht]
      by_cases hbef : range.startLineNumber ≤ isr.startLineNumber - 1
      · have eb : mkRange range.startLineNumber 1 (isr.startLineNumber - 1) 1 =
            ⟨range.startLineNumber, 1, isr.startLineNumber - 1, 1⟩ :=
          mkRange_line _ _ (by omega)
        rw [if_pos hbef, eb]
        by_cases haft : isr.endLineNumber + 1 ≤ range.endLineNumber
        · have ea : mkRange (isr.endLineNumber + 1) 1 range.endLineNumber 1 =
              ⟨isr.endLineNumber + 1, 1, range.endLineNumber, 1⟩ :=
            mkRange_line _ _ (by omega)
          rw [if_pos haft, ea]
          constructor
          · ext x
            simp only [emittedLines_append, emittedLines_cons, emittedLines_nil,
              mkDecoration, linesOf, Finset.mem_union, Finset.mem_sdiff,
              Finset.mem_Icc, Finset.union_empty, Finset.not_mem_empty,
              Finset.sdiff_empty, List.nil_append, List.append_nil, false_iff]
            omega
          · simp only [pairwiseDisjointLines, mkDecoration, List.append_nil,
              List.nil_append, List.cons_append, List.pairwise_cons,
              List.mem_cons, List.mem_singleton, List.not_mem_nil,
              linesOf, disjoint_Icc_iff]
            simp
            try omega
            try constructor <;> omega
        · rw [if_neg haft]
          constructor
          · ext x
            simp only [emittedLines_append, emittedLines_cons, emittedLines_nil,
              mkDecoration, linesOf, Finset.mem_union, Finset.mem_sdiff,
              Finset.mem_Icc, Finset.union_empty, Finset.not_mem_empty,
              Finset.sdiff_empty, List.nil_append, List.append_nil, false_iff]
            omega
          · simp only [pairwiseDisjointLines, mkDecoration, List.append_nil,
              List.nil_append, List.cons_append, List.pairwise_cons,
              List.mem_cons, List.mem_singleton, List.not_mem_nil,
              linesOf, disjoint_Icc_iff]
            simp
            try omega
            try constructor <;> omega
      · rw [if_neg hbef]
        by_cases haft : isr.endLineNumber + 1 ≤ range.endLineNumber
        · have ea : mkRange (isr.endLineNumber + 1) 1 range.endLineNumber 1 =
              ⟨isr.endLineNumber + 1, 1, range.endLineNumber, 1⟩ :=
            mkRange_line _ _ (by omega)
          rw [if_pos haft, ea]
          constructor
          · ext x
            simp only [emittedLines_append, emittedLines_cons, emittedLines_nil,
              mkDecoration, linesOf, Finset.mem_union, Finset.mem_sdiff,
              Finset.mem_Icc, Finset.union_empty, Finset.not_mem_empty,
              Finset.sdiff_empty, List.nil_append, List.append_nil, false_iff]
            omega
          · simp only [pairwiseDisjointLines, mkDecoration, List.append_nil,
              List.nil_append, List.cons_append, List.pairwise_cons,
              List.mem_cons, List.mem_singleton, List.not_mem_nil,
              linesOf, disjoint_Icc_iff]
            simp
            try omega
            try constructor <;> omega
        · rw [if_neg haft]
          constructor
          · ext x
            simp only [emittedLines_append, emittedLines_cons, emittedLines_nil,
              mkDecoration, linesOf, Finset.mem_union, Finset.mem_sdiff,
              Finset.mem_Icc, Finset.union_empty, Finset.not_mem_empty,
              Finset.sdiff_empty, List.nil_append, List.append_nil, false_iff]
            omega
          · simp only [pairwiseDisjointLines, mkDecoration, List.append_nil,
              List.nil_append, List.cons_append, List.pairwise_cons,
              List.mem_cons, List.mem_singleton, List.not_mem_nil,
              linesOf, disjoint_Icc_iff]
            simp
            try omega
            try constructor <;> omega
    · rw [if_neg hlht, if_neg hlht]
      by_cases hbef : range.startLineNumber ≤ isr.startLineNumber - 1
      · have eb : mkRange range.startLineNumber 1 (isr.startLineNumber - 1) 1 =
            ⟨range.startLineNumber, 1, isr.startLineNumber - 1, 1⟩ :=
          mkRange_line _ _ (by omega)
        rw [if_pos hbef, eb]
        by_cases haft : isr.endLineNumber + 1 ≤ range.endLineNumber
        · have ea : mkRange (isr.endLineNumber + 1) 1 range.endLineNumber 1 =
              ⟨isr.endLineNumber + 1, 1, range.endLineNumber, 1⟩ :=
            mkRange_line _ _ (by omega)
          rw [if_pos haft, ea]
          constructor
          · ext x
            simp only [emittedLines_append, emittedLines_cons, emittedLines_nil,
              mkDecoration, linesOf, Finset.mem_union, Finset.mem_sdiff,
              Finset.mem_Icc, Finset.union_empty, Finset.not_mem_empty,
              Finset.sdiff_empty, List.nil_append, List.append_nil, false_iff]
            omega
          · simp only [pairwiseDisjointLines, mkDecoration, List.append_nil,
              List.nil_append, List.cons_append, List.pairwise_cons,
              List.mem_cons, List.mem_singleton, List.not_mem_nil,
              linesOf, disjoint_Icc_iff]
            simp
            try omega
            try constructor <;> omega
        · rw [if_neg haft]
          constructor
          · ext x
            simp only [emittedLines_append, emittedLines_cons, emittedLines_nil,
              mkDecoration, linesOf, Finset.mem_union, Finset.mem_sdiff,
              Finset.mem_Icc, Finset.union_empty, Finset.not_mem_empty,
              Finset.sdiff_empty, List.nil_append, List.append_nil, false_iff]
            omega
          · simp only [pairwiseDisjointLines, mkDecoration, List.append_nil,
              List.nil_append, List.cons_append, List.pairwise_cons,
              List.mem_cons, List.mem_singleton, List.not_mem_nil,
              linesOf, disjoint_Icc_iff]
            simp
            try omega
            try constructor <;> omega
      · rw [if_neg hbef]
        by_cases haft : isr.endLineNumber + 1 ≤ range.endLineNumber
        · have ea : mkRange (isr.endLineNumber + 1) 1 range.endLineNumber 1 =
              ⟨isr.endLineNumber + 1, 1, range.endLineNumber, 1⟩ :=
            mkRange_line _ _ (by omega)
          rw [if_pos haft, ea]
          constructor
          · ext x
            simp only [emittedLines_append, emittedLines_cons, emittedLines_nil,
              mkDecoration, linesOf, Finset.mem_union, Finset.mem_sdiff,
              Finset.mem_Icc, Finset.union_empty, Finset.not_mem_empty,
              Finset.sdiff_empty, List.nil_append, List.append_nil, false_iff]
            omega
          · simp only [pairwiseDisjointLines, mkDecoration, List.append_nil,
              List.nil_append, List.cons_append, List.pairwise_cons,
              List.mem_cons, List.mem_singleton, List.not_mem_nil,
              linesOf, disjoint_Icc_iff]
            simp
            try omega
            try constructor <;> omega
        · rw [if_neg haft]
          constructor
          · ext x
            simp only [emittedLines_append, emittedLines_cons, emittedLines_nil,
              mkDecoration, linesOf, Finset.mem_union, Finset.mem_sdiff,
              Finset.mem_Icc, Finset.union_empty, Finset.not_mem_empty,
              Finset.sdiff_empty, List.nil_append, List.append_nil, false_iff]
            omega
          · simp only [pairwiseDisjointLines, mkDecoration, List.append_nil,
              List.nil_append, List.cons_append, List.pairwise_cons,
              List.mem_cons, List.mem_singleton, List.not_mem_nil,
              linesOf, disjoint_Icc_iff]
            simp
            try omega
            try constructor <;> omega
  · rw [if_neg hA, if_neg hA]
    have ee : mkRange isr.endLineNumber 1 isr.endLineNumber 1 =
        ⟨isr.endLineNumber, 1, isr.endLineNumber, 1⟩ := mkRange_line _ _ le_rfl
    have em : mkRange isr.startLineNumber 1 (isr.endLineNumber - 1) 1 =
        ⟨isr.startLineNumber, 1, isr.endLineNumber - 1, 1⟩ :=
      mkRange_line _ _ (by omega)
    rw [ee, em]
    dsimp only
    have hmin : min isr.endLineNumber isr.startLineNumber =
        isr.startLineNumber := min_eq_right (by omega)
    have hmax : max isr.endLineNumber (isr.endLineNumber - 1) =
        isr.endLineNumber := max_eq_left (by omega)
    rw [hmin, hmax]
    by_cases hlht : lht ⟨isr.endLineNumber, 1, isr.endLineNumber, 1⟩ = true
    · rw [if_pos hlht, if_pos hlht]
      by_cases hbef : range.startLineNumber ≤ isr.startLineNumber - 1
      · have eb : mkRange range.startLineNumber 1 (isr.startLineNumber - 1) 1 =
            ⟨range.startLineNumber, 1, isr.startLineNumber - 1, 1⟩ :=
          mkRange_line _ _ (by omega)
        rw [if_pos hbef, eb]
        by_cases haft : isr.endLineNumber + 1 ≤ range.endLineNumber
        · have ea : mkRange (isr.endLineNumber + 1) 1 range.endLineNumber 1 =
              ⟨isr.endLineNumber + 1, 1, range.endLineNumber, 1⟩ :=
            mkRange_line _ _ (by omega)
          rw [if_pos haft, ea]
          constructor
          · ext x
            simp only [emittedLines_append, emittedLines_cons, emittedLines_nil,
              mkDecoration, linesOf, Finset.mem_union, Finset.mem_sdiff,
              Finset.mem_Icc, Finset.union_empty, Finset.not_mem_empty,
              Finset.sdiff_empty, List.nil_append, List.append_nil, false_iff]
            omega
          · simp only [pairwiseDisjointLines, mkDecoration, List.append_nil,
              List.nil_append, List.cons_append, List.pairwise_cons,
              List.mem_cons, List.mem_singleton, List.not_mem_nil,
              linesOf, disjoint_Icc_iff]
            simp
            try omega
            try constructor <;> omega
        · rw [if_neg haft]
          constructor
          · ext x
            simp only [emittedLines_append, emittedLines_cons, emittedLines_nil,
              mkDecoration, linesOf, Finset.mem_union, Finset.mem_sdiff,
              Finset.mem_Icc, Finset.union_empty, Finset.not_mem_empty,
              Finset.sdiff_empty, List.nil_append, List.append_nil, false_iff]
            omega
          · simp only [pairwiseDisjointLines, mkDecoration, List.append_nil,
              List.nil_append, List.cons_append, List.pairwise_cons,
              List.mem_cons, List.mem_singleton, List.not_mem_nil,
              linesOf, disjoint_Icc_iff]
            simp
            try omega
            try constructor <;> omega
      · rw [if_neg hbef]
        by_cases haft : isr.endLineNumber + 1 ≤ range.endLineNumber
        · have ea : mkRange (isr.endLineNumber + 1) 1 range.endLineNumber 1 =
              ⟨isr.endLineNumber + 1, 1, range.endLineNumber, 1⟩ :=
            mkRange_line _ _ (by omega)
          rw [if_pos haft, ea]
          constructor
          · ext x
            simp only [emittedLines_append, emittedLines_cons, emittedLines_nil,
              mkDecoration, linesOf, Finset.mem_union, Finset.mem_sdiff,
              Finset.mem_Icc, Finset.union_empty, Finset.not_mem_empty,
              Finset.sdiff_empty, List.nil_append, List.append_nil, false_iff]
            omega
          · simp only [pairwiseDisjointLines, mkDecoration, List.append_nil,
              List.nil_append, List.cons_append, List.pairwise_cons,
              List.mem_cons, List.mem_singleton, List.not_mem_nil,
              linesOf, disjoint_Icc_iff]
            simp
            try omega
            try constructor <;> omega
        · rw [if_neg haft]
          constructor
          · ext x
            simp only [emittedLines_append, emittedLines_cons, emittedLines_nil,
              mkDecoration, linesOf, Finset.mem_union, Finset.mem_sdiff,
              Finset.mem_Icc, Finset.union_empty, Finset.not_mem_empty,
              Finset.sdiff_empty, List.nil_append, List.append_nil, false_iff]
            omega
          · simp only [pairwiseDisjointLines, mkDecoration, List.append_nil,
              List.nil_append, List.cons_append, List.pairwise_cons,
              List.mem_cons, List.mem_singleton, List.not_mem_nil,
              linesOf, disjoint_Icc_iff]
            simp
            try omega
            try constructor <;> omega
    · rw [if_neg hlht, if_neg hlht]
      by_cases hbef : range.startLineNumber ≤ isr.startLineNumber - 1
      · have eb : mkRange range.startLineNumber 1 (isr.startLineNumber - 1) 1 =
            ⟨range.startLineNumber, 1, isr.startLineNumber - 1, 1⟩ :=
          mkRange_line _ _ (by omega)
        rw [if_pos hbef, eb]
        by_cases haft : isr.endLineNumber + 1 ≤ range.endLineNumber
        · have ea : mkRange (isr.endLineNumber + 1) 1 range.endLineNumber 1 =
              ⟨isr.endLineNumber + 1, 1, range.endLineNumber, 1⟩ :=
            mkRange_line _ _ (by omega)
          rw [if_pos haft, ea]
          constructor
          · ext x
            simp only [emittedLines_append, emittedLines_cons, emittedLines_nil,
              mkDecoration, linesOf, Finset.mem_union, Finset.mem_sdiff,
              Finset.mem_Icc, Finset.union_empty, Finset.not_mem_empty,
              Finset.sdiff_empty, List.nil_append, List.append_nil, false_iff]
            omega
          · simp only [pairwiseDisjointLines, mkDecoration, List.append_nil,
              List.nil_append, List.cons_append, List.pairwise_cons,
              List.mem_cons, List.mem_singleton, List.not_mem_nil,
              linesOf, disjoint_Icc_iff]
            simp
            try omega
            try constructor <;> omega
        · rw [if_neg haft]
          constructor
          · ext x
            simp only [emittedLines_append, emittedLines_cons, emittedLines_nil,
              mkDecoration, linesOf, Finset.mem_union, Finset.mem_sdiff,
              Finset.mem_Icc, Finset.union_empty, Finset.not_mem_empty,
              Finset.sdiff_empty, List.nil_append, List.append_nil, false_iff]
            omega
          · simp only [pairwiseDisjointLines, mkDecoration, List.append_nil,
              List.nil_append, List.cons_append, List.pairwise_cons,
              List.mem_cons, List.mem_singleton, List.not_mem_nil,
              linesOf, disjoint_Icc_iff]
            simp
            try omega
            try constructor <;> omega
      · rw [if_neg hbef]
        by_cases haft : isr.endLineNumber + 1 ≤ range.endLineNumber
        · have ea : mkRange (isr.endLineNumber + 1) 1 range.endLineNumber 1 =
              ⟨isr.endLineNumber + 1, 1, range.endLineNumber, 1⟩ :=
            mkRange_line _ _ (by omega)
          rw [if_pos haft, ea]
          constructor
          · ext x
            simp only [emittedLines_append, emittedLines_cons, emittedLines_nil,
              mkDecoration, linesOf, Finset.mem_union, Finset.mem_sdiff,
              Finset.mem_Icc, Finset.union_empty, Finset.not_mem_empty,
              Finset.sdiff_empty, List.nil_append, List.append_nil, false_iff]
            omega
          · simp only [pairwiseDisjointLines, mkDecoration, List.append_nil,
              List.nil_append, List.cons_append, List.pairwise_cons,
              List.mem_cons, List.mem_singleton, List.not_mem_nil,
              linesOf, disjoint_Icc_iff]
            simp
            try omega
            try constructor <;> omega
        · rw [if_neg haft]
          constructor
          · ext x
            simp only [emittedLines_append, emittedLines_cons, emittedLines_nil,
              mkDecoration, linesOf, Finset.mem_union, Finset.mem_sdiff,
              Finset.mem_Icc, Finset.union_empty, Finset.not_mem_empty,
              Finset.sdiff_empty, List.nil_append, List.append_nil, false_iff]
            omega
          · simp only [pairwiseDisjointLines, mkDecoration, List.append_nil,
              List.nil_append, List.cons_append, List.pairwise_cons,
              List.mem_cons, List.mem_singleton, List.not_mem_nil,
              linesOf, disjoint_Icc_iff]
            simp
            try omega
            try constructor <;> omega

theorem mem_ite_singleton {α : Type} {c : Prop} [Decidable c] {x a : α}
    (h : a ∈ if c then [x] else []) : c ∧ a = x := by
  split at h
  · exact ⟨by assumption, List.mem_singleton.mp h⟩
  · cases h

theorem mem_ite_nil_left {α : Type} {c : Prop} [Decidable c] {x a : α}
    (h : a ∈ if c then [] else [x]) : ¬c ∧ a = x := by
  split at h
  · cases h
  · exact ⟨by assumption, List.mem_singleton.mp h⟩

/-- The branch probe equals the single-line emphasis probe whenever the
multiline branch is not taken. -/
theorem emphasisTestRange_single (emphasisLine : Int)
    (selectionRange : Option Range) (range : Range) (hR : range.isNormalized)
    (hside : ∀ isr, intersectionOf range selectionRange = some isr →
      ¬(0 ≤ emphasisLine ∧ ¬(isr.startLineNumber = isr.endLineNumber ∧
        emphasisLine = isr.startLineNumber))) :
    emphasisTestRange emphasisLine selectionRange range =
      (if range.startLineNumber ≤ emphasisLine ∧
          emphasisLine ≤ range.endLineNumber
       then some (mkRange emphasisLine 1 emphasisLine 1) else none) := by
  have hro := mkRange_eq_self hR
  unfold emphasisTestRange
  dsimp only
  rw [hro]
  cases hI : intersectionOf range selectionRange with
  | none => rfl
  | some isr =>
    dsimp only
    rw [if_neg (hside isr hI)]

/-- The branch probe in the multiline branch is the carved-out emphasis
sub-range. -/
theorem emphasisTestRange_multiline (emphasisLine : Int)
    (selectionRange : Option Range) (range isr : Range)
    (hI : intersectionOf range selectionRange = some isr)
    (hg : 0 ≤ emphasisLine ∧ ¬(isr.startLineNumber = isr.endLineNumber ∧
      emphasisLine = isr.startLineNumber)) :
    emphasisTestRange emphasisLine selectionRange range =
      some (multilineEmphasisRange emphasisLine isr) := by
  unfold emphasisTestRange
  dsimp only
  rw [hI]
  dsimp only
  rw [if_pos hg]

theorem suppressedLines_single (lht : Range → Bool) (emphasisLine : Int)
    (selectionRange : Option Range) (range : Range)
    (hstr : emphasisTestRange emphasisLine selectionRange range =
      (if range.startLineNumber ≤ emphasisLine ∧
          emphasisLine ≤ range.endLineNumber
       then some (mkRange emphasisLine 1 emphasisLine 1) else none)) :
    suppressedLines lht emphasisLine selectionRange range =
      (if (range.startLineNumber ≤ emphasisLine ∧
            emphasisLine ≤ range.endLineNumber) ∧
          lht (mkRange emphasisLine 1 emphasisLine 1) = true
       then linesOf (mkRange emphasisLine 1 emphasisLine 1) else ∅) := by
  unfold suppressedLines
  rw [hstr]
  by_cases hP : range.startLineNumber ≤ emphasisLine ∧
      emphasisLine ≤ range.endLineNumber
  · rw [if_pos hP]
    by_cases hlht : lht (mkRange emphasisLine 1 emphasisLine 1) = true
    · have hc : (range.startLineNumber ≤ emphasisLine ∧
          emphasisLine ≤ range.endLineNumber) ∧
          lht (mkRange emphasisLine 1 emphasisLine 1) = true := ⟨hP, hlht⟩
      rw [if_pos hc]
      dsimp only
      rw [if_pos hlht]
    · have hc : ¬((range.startLineNumber ≤ emphasisLine ∧
          emphasisLine ≤ range.endLineNumber) ∧
          lht (mkRange emphasisLine 1 emphasisLine 1) = true) :=
        fun hc => hlht hc.2
      rw [if_neg hc]
      dsimp only
      rw [if_neg hlht]
  · have hc : ¬((range.startLineNumber ≤ emphasisLine ∧
        emphasisLine ≤ range.endLineNumber) ∧
        lht (mkRange emphasisLine 1 emphasisLine 1) = true) :=
      fun hc => hP hc.1
    rw [if_neg hP, if_neg hc]

theorem suppressedLines_multiline (lht : Range → Bool) (emphasisLine : Int)
    (selectionRange : Option Range) (range isr : Range)
    (hstr : emphasisTestRange emphasisLine selectionRange range =
      some (multilineEmphasisRange emphasisLine isr)) :
    suppressedLines lht emphasisLine selectionRange range =
      (if lht (multilineEmphasisRange emphasisLine isr) = true
       then linesOf (multilineEmphasisRange emphasisLine isr) else ∅) := by
  unfold suppressedLines
  rw [hstr]

/-- Claim C1 (counterexample): a provider range covering only line 5, a
selection from line 5 to line 10 and emphasis line 10 route to the
multiline branch with a single-line intersection; the normalizing Range
constructor swaps the inverted remainder, and the emitted sub-ranges cover
line 4 outside the provider range and overlap on line 5, so the emission is
neither a tiling of the range nor pairwise disjoint.  Independently, when a
comment-thread glyph occupies the emphasis line of a range over lines 1 to
5, the suppressed emphasis sub-range leaves the union missing line 3. -/
theorem c1_tiling_counterexample :
    (emittedLines (doUpdateRange (fun _ => false) "ownerA" none none 7 10
        (some ⟨5, 1, 10, 1⟩) ⟨5, 1, 5, 100⟩) ≠
      linesOf ⟨5, 1, 5, 100⟩ ∧
    ¬ pairwiseDisjointLines (doUpdateRange (fun _ => false) "ownerA" none none
        7 10 (some ⟨5, 1, 10, 1⟩) ⟨5, 1, 5, 100⟩)) ∧
    emittedLines (doUpdateRange (fun _ => true) "ownerA" none none 7 3
        none ⟨1, 1, 5, 10⟩) ≠ linesOf ⟨1, 1, 5, 10⟩ := by
  refine ⟨⟨?_, ?_⟩, ?_⟩
  · decide
  · decide
  · decide

/-- Claim C1 (amended): for every provider range, selection and emphasis
line, the sub-ranges emitted for the range by the per-range loop body of
_doUpdate are pairwise non-overlapping by line and their lines are exactly
the lines of the range minus an emphasis line suppressed by an existing
comment-thread glyph, provided the range is normalized and the multiline
branch is only reached with a selection intersection spanning at least two
lines (a single-line intersection whose line differs from the emphasis
line produces a swapped range that escapes the provider range, see the
counterexample). -/
theorem c1_tiling_amended (lht : Range → Bool) (owner : String)
    (ext lbl : Option String) (cr : Nat) (emphasisLine : Int)
    (selectionRange : Option Range) (range : Range)
    (hR : range.isNormalized)
    (hmulti : ∀ isr, intersectionOf range selectionRange = some isr →
      (0 ≤ emphasisLine ∧ ¬(isr.startLineNumber = isr.endLineNumber ∧
        emphasisLine = isr.startLineNumber)) →
      isr.startLineNumber < isr.endLineNumber) :
    emittedLines (doUpdateRange lht owner ext lbl cr emphasisLine
        selectionRange range) =
      linesOf range \ suppressedLines lht emphasisLine selectionRange range ∧
    pairwiseDisjointLines (doUpdateRange lht owner ext lbl cr emphasisLine
        selectionRange range) := by
  have hro := mkRange_eq_self hR
  have hrange : range.startLineNumber ≤ range.endLineNumber := by
    rcases hR with h | ⟨h, _⟩ <;> omega
  cases hI : intersectionOf range selectionRange with
  | none =>
    have hred : doUpdateRange lht owner ext lbl cr emphasisLine
        selectionRange range =
        doUpdateSingleOrPlain lht owner ext lbl cr emphasisLine range := by
      unfold doUpdateRange
      rw [hI]
    have hsup := suppressedLines_single lht emphasisLine selectionRange range
      (emphasisTestRange_single emphasisLine selectionRange range hR
        (fun isr hisr => by rw [hI] at hisr; exact Option.noConfusion hisr))
    rw [hred, hsup]
    exact singleOrPlain_spec lht owner ext lbl cr emphasisLine range hR
  | some isr =>
    by_cases hg : 0 ≤ emphasisLine ∧
        ¬(isr.startLineNumber = isr.endLineNumber ∧
          emphasisLine = isr.startLineNumber)
    · have his := hmulti isr hI hg
      have hb : range.startLineNumber ≤ isr.startLineNumber ∧
          isr.endLineNumber ≤ range.endLineNumber := by
        unfold intersectionOf at hI
        cases selectionRange with
        | none => exact Option.noConfusion hI
        | some s =>
          rw [hro] at hI
          have h := intersectRanges_bounds hI
          exact ⟨h.1, h.2.1⟩
      have hred : doUpdateRange lht owner ext lbl cr emphasisLine
          selectionRange range =
          multilinePieces lht owner ext lbl cr emphasisLine range range isr := by
        unfold doUpdateRange
        rw [hI]
        dsimp only
        rw [if_pos hg, hro]
      have hsup := suppressedLines_multiline lht emphasisLine selectionRange
        range isr (emphasisTestRange_multiline emphasisLine selectionRange
          range isr hI hg)
      rw [hred, hsup]
      exact multiline_spec lht owner ext lbl cr emphasisLine range isr hrange
        his hb.1 hb.2
    · have hred : doUpdateRange lht owner ext lbl cr emphasisLine
          selectionRange range =
          doUpdateSingleOrPlain lht owner ext lbl cr emphasisLine range := by
        unfold doUpdateRange
        rw [hI]
        dsimp only
        rw [if_neg hg]
      have hsup := suppressedLines_single lht emphasisLine selectionRange range
        (emphasisTestRange_single emphasisLine selectionRange range hR
          (fun isr2 hisr2 => by
            rw [hI] at hisr2
            obtain rfl := Option.some.inj hisr2
            exact hg))
      rw [hred, hsup]
      exact singleOrPlain_spec lht owner ext lbl cr emphasisLine range hR

/-- Witness for the amended tiling claim at a concrete input: range lines
1 to 5, selection lines 2 to 3, emphasis line 3, no glyphs. -/
theorem c1_tiling_amended_witness :
    emittedLines (doUpdateRange (fun _ => false) "ownerA" none none 7 3
        (some ⟨2, 1, 3, 5⟩) ⟨1, 1, 5, 10⟩) =
      linesOf ⟨1, 1, 5, 10⟩ \
        suppressedLines (fun _ => false) 3 (some ⟨2, 1, 3, 5⟩) ⟨1, 1, 5, 10⟩ ∧
    pairwiseDisjointLines (doUpdateRange (fun _ => false) "ownerA" none none
        7 3 (some ⟨2, 1, 3, 5⟩) ⟨1, 1, 5, 10⟩) := by
  refine c1_tiling_amended (fun _ => false) "ownerA" none none 7 3
    (some ⟨2, 1, 3, 5⟩) ⟨1, 1, 5, 10⟩ (by decide) ?_
  intro isr hisr hg
  have he : intersectionOf ⟨1, 1, 5, 10⟩ (some ⟨2, 1, 3, 5⟩) =
      some (⟨2, 1, 3, 5⟩ : Range) := by decide
  rw [he] at hisr
  obtain rfl := Option.some.inj hisr
  decide

theorem multilinePieces_hover (lht : Range → Bool) (owner : String)
    (ext lbl : Option String) (cr : Nat) (emphasisLine : Int)
    (range rangeObject isr : Range) (d : CommentingRangeDecoration)
    (hd : d ∈ multilinePieces lht owner ext lbl cr emphasisLine range
      rangeObject isr)
    (hh : d.options = DecorationOptionsKind.hover) : lht d.range = false := by
  unfold multilinePieces at hd
  dsimp only at hd
  simp only [List.append_assoc, List.mem_append, List.mem_singleton] at hd
  rcases hd with h | h | h | h
  · subst h
    simp [mkDecoration] at hh
  · obtain ⟨hnc, rfl⟩ := mem_ite_nil_left h
    simpa [mkDecoration] using Bool.eq_false_iff.mpr hnc
  · obtain ⟨_, rfl⟩ := mem_ite_singleton h
    simp [mkDecoration] at hh
  · obtain ⟨_, rfl⟩ := mem_ite_singleton h
    simp [mkDecoration] at hh

theorem singleOrPlain_hover (lht : Range → Bool) (owner : String)
    (ext lbl : Option String) (cr : Nat) (emphasisLine : Int) (range : Range)
    (d : CommentingRangeDecoration)
    (hd : d ∈ doUpdateSingleOrPlain lht owner ext lbl cr emphasisLine range)
    (hh : d.options = DecorationOptionsKind.hover) : lht d.range = false := by
  unfold doUpdateSingleOrPlain at hd
  dsimp only at hd
  split at hd
  · simp only [List.append_assoc, List.mem_append, List.mem_singleton] at hd
    rcases hd with h | h | h
    · obtain ⟨_, rfl⟩ := mem_ite_singleton h
      simp [mkDecoration] at hh
    · obtain ⟨hnc, rfl⟩ := mem_ite_nil_left h
      simpa [mkDecoration] using Bool.eq_false_iff.mpr hnc
    · obtain ⟨_, rfl⟩ := mem_ite_singleton h
      simp [mkDecoration] at hh
  · rw [List.mem_singleton] at hd
    subst hd
    simp [mkDecoration] at hh

theorem doUpdateRange_hover (lht : Range → Bool) (owner : String)
    (ext lbl : Option String) (cr : Nat) (emphasisLine : Int)
    (selectionRange : Option Range) (range : Range)
    (d : CommentingRangeDecoration)
    (hd : d ∈ doUpdateRange lht owner ext lbl cr emphasisLine
      selectionRange range)
    (hh : d.options = DecorationOptionsKind.hover) : lht d.range = false := by
  unfold doUpdateRange at hd
  cases hI : intersectionOf range selectionRange with
  | none =>
    rw [hI] at hd
    exact singleOrPlain_hover lht owner ext lbl cr emphasisLine range d hd hh
  | some isr =>
    rw [hI] at hd
    dsimp only at hd
    split at hd
    · exact multilinePieces_hover lht owner ext lbl cr emphasisLine range _
        isr d hd hh
    · exact singleOrPlain_hover lht owner ext lbl cr emphasisLine range d hd hh

/-- Claim C5: in every recompute, an emitted decoration with the
hover/cursor emphasis rendering category sits on a range for which the
thread-glyph probe answered false, so no hover emphasis sub-range lies on
a line that already hosts a comment-thread glyph; the emphasis sub-range
is suppressed in both the multiline-selection branch and the
single-emphasis-line branch when such a glyph is present. -/
theorem c5_hover_mutual_exclusion (lht : Range → Bool)
    (commentInfos : List ICommentInfo) (emphasisLine : Int)
    (selectionRange : Option Range) (d : CommentingRangeDecoration)
    (hd : d ∈ doUpdate lht commentInfos emphasisLine selectionRange)
    (hh : d.options = DecorationOptionsKind.hover) : lht d.range = false := by
  unfold doUpdate at hd
  simp only [List.mem_flatMap] at hd
  obtain ⟨info, _, r, _, hdr⟩ := hd
  exact doUpdateRange_hover lht info.owner info.extensionId info.label
    info.commentingRanges.crId emphasisLine selectionRange r d hdr hh

/-- Witness for the mutual-exclusion claim: one provider range over lines
1 to 5 with a glyph probe true only at line 5, emphasis line 3; the hover
decoration emitted at line 3 satisfies the conclusion. -/
theorem c5_hover_mutual_exclusion_witness :
    (fun r : Range => decide (r.startLineNumber = 5))
      (mkDecoration "ownerA" none none 0 ⟨3, 1, 3, 1⟩
        DecorationOptionsKind.hover true).range = false :=
  c5_hover_mutual_exclusion (fun r : Range => decide (r.startLineNumber = 5))
    [⟨"ownerA", none, none, ⟨0, [⟨1, 1, 5, 10⟩], false⟩⟩] 3 none
    (mkDecoration "ownerA" none none 0 ⟨3, 1, 3, 1⟩
      DecorationOptionsKind.hover true)
    (by decide) (by decide)

/-- Claim C10: every commenting-range decoration submitted to the editor
is line-granular: the range getter keeps only the start and end line
numbers of the constructor range and sets both columns to 1, whatever the
columns of the provider range were. -/
theorem c10_delta_range_line_granular (lht : Range → Bool)
    (commentInfos : List ICommentInfo) (emphasisLine : Int)
    (selectionRange : Option Range) (d : CommentingRangeDecoration)
    (hd : d ∈ doUpdate lht commentInfos emphasisLine selectionRange) :
    d.deltaRange.startColumn = 1 ∧ d.deltaRange.endColumn = 1 ∧
    d.deltaRange.startLineNumber = d.range.startLineNumber ∧
    d.deltaRange.endLineNumber = d.range.endLineNumber :=
  ⟨rfl, rfl, rfl, rfl⟩

/-- Witness for the line-granularity claim: the plain decoration emitted
unchanged for a provider range with columns 7 and 42 still submits columns
1 and 1. -/
theorem c10_delta_range_line_granular_witness :
    (mkDecoration "ownerA" none none 0 ⟨1, 7, 5, 42⟩
        DecorationOptionsKind.plain false).deltaRange.startColumn = 1 ∧
    (mkDecoration "ownerA" none none 0 ⟨1, 7, 5, 42⟩
        DecorationOptionsKind.plain false).deltaRange.endColumn = 1 ∧
    (mkDecoration "ownerA" none none 0 ⟨1, 7, 5, 42⟩
        DecorationOptionsKind.plain false).deltaRange.startLineNumber =
      (mkDecoration "ownerA" none none 0 ⟨1, 7, 5, 42⟩
        DecorationOptionsKind.plain false).range.startLineNumber ∧
    (mkDecoration "ownerA" none none 0 ⟨1, 7, 5, 42⟩
        DecorationOptionsKind.plain false).deltaRange.endLineNumber =
      (mkDecoration "ownerA" none none 0 ⟨1, 7, 5, 42⟩
        DecorationOptionsKind.plain false).range.endLineNumber :=
  c10_delta_range_line_granular (fun _ => false)
    [⟨"ownerA", none, none, ⟨0, [⟨1, 7, 5, 42⟩], false⟩⟩] (-1) none
    (mkDecoration "ownerA" none none 0 ⟨1, 7, 5, 42⟩
      DecorationOptionsKind.plain false)
    (by decide)

/-- CommentRangeAction as returned by getCommentAction. -/
structure CommentRangeAction where
  ownerId : String
  extensionId : Option String
  label : Option String
  crInfo : Nat
deriving DecidableEq, Repr

def CommentingRangeDecoration.getCommentAction
    (d : CommentingRangeDecoration) : CommentRangeAction :=
  ⟨d.ownerId, d.extensionId, d.label, d.crInfo⟩

/-- areRangesIntersectingOrTouchingByLine: two ranges touch or intersect by
line unless one ends strictly more than one line before the other starts. -/
def areRangesIntersectingOrTouchingByLine (a b : Range) : Bool :=
  if a.endLineNumber < b.startLineNumber - 1 then false
  else if b.endLineNumber + 1 < a.startLineNumber then false
  else true

/-- The foundHoverActions map of getMatchedCommentAction: association list
keyed by ownerId, in insertion order. -/
abbrev FoundMap := List (String × (Range × CommentRangeAction))

/-- JS Map.set semantics: replace the entry in place when the key exists
(keeping its position), else append at the end. -/
def mapSet (m : FoundMap) (k : String) (v : Range × CommentRangeAction) :
    FoundMap :=
  match m with
  | [] => [(k, v)]
  | p :: rest => if p.1 = k then (k, v) :: rest else p :: mapSet rest k v

/-- The merged range of the merge branch: componentwise minimum of the
start coordinates and maximum of the end coordinates, built with the
normalizing Range constructor. -/
def mergeRange (range already : Range) : Range :=
  mkRange
    (if range.startLineNumber < already.startLineNumber then
      range.startLineNumber else already.startLineNumber)
    (if range.startColumn < already.startColumn then
      range.startColumn else already.startColumn)
    (if range.endLineNumber > already.endLineNumber then
      range.endLineNumber else already.endLineNumber)
    (if range.endColumn > already.endColumn then
      range.endColumn else already.endColumn)

/-- One loop iteration of getMatchedCommentAction over one decoration:
skip decorations without a live range or not touching the hit range;
otherwise store, merging with the already-found entry of the same owner
when the underlying commentingRangesInfo is the same object, replacing it
otherwise. -/
def matchedActionStep (commentRange : Range) (m : FoundMap)
    (d : CommentingRangeDecoration) : FoundMap :=
  match d.activeRange with
  | none => m
  | some range =>
    if areRangesIntersectingOrTouchingByLine range commentRange then
      let action := d.getCommentAction
      match m.find? (fun p => p.1 == action.ownerId) with
      | some found =>
        if found.2.2.crInfo = action.crInfo then
          mapSet m action.ownerId (mergeRange range found.2.1, action)
        else mapSet m action.ownerId (range, action)
      | none => mapSet m action.ownerId (range, action)
    else m

/-- getMatchedCommentAction: with no hit range, one action per provider
declaring file-level comments; with a hit range, fold the live decorations
into the owner-keyed map and keep the owners whose final range contains
the hit range by line on both endpoints. -/
def getMatchedCommentAction (infos : List ICommentInfo)
    (decorations : List CommentingRangeDecoration)
    (commentRange : Option Range) : List CommentRangeAction :=
  match commentRange with
  | none =>
      (infos.filter (fun i => i.commentingRanges.fileComments)).map
        (fun i => ⟨i.owner, i.extensionId, i.label, i.commentingRanges.crId⟩)
  | some commentRange =>
      let found := decorations.foldl (matchedActionStep commentRange) []
      ((found.map (fun p => p.2)).filter (fun p =>
          decide (p.1.startLineNumber ≤ commentRange.startLineNumber) &&
          decide (commentRange.endLineNumber ≤ p.1.endLineNumber))).map
        (fun p => p.2)

/-- The touching claims of one owner against a hit range: the live ranges
of the decorations of that owner that touch or intersect the hit range by
line. -/
def ownerMatchedActiveRanges (ds : List CommentingRangeDecoration)
    (O : String) (H : Range) : List Range :=
  ds.filterMap fun d =>
    d.activeRange.bind fun r =>
      if d.ownerId = O ∧ areRangesIntersectingOrTouchingByLine r H = true
      then some r else none

/-- The running bounding merge of a list of ranges starting from an
optional accumulator, exactly as the fold of getMatchedCommentAction
performs it for one owner. -/
def spanFold (acc : Option Range) (l : List Range) : Option Range :=
  l.foldl (fun a r =>
    match a with
    | none => some r
    | some x => some (mergeRange r x)) acc

theorem mergeRange_spec {a b : Range} (ha : a.isNormalized)
    (hb : b.isNormalized) :
    (mergeRange a b).isNormalized ∧
    (mergeRange a b).startLineNumber = min a.startLineNumber b.startLineNumber ∧
    (mergeRange a b).endLineNumber = max a.endLineNumber b.endLineNumber := by
  unfold Range.isNormalized at *
  unfold mergeRange mkRange
  split_ifs <;> dsimp only <;> omega

theorem mapSet_find_self (k : String) (v : Range × CommentRangeAction) :
    ∀ m : FoundMap, (mapSet m k v).find? (fun q => q.1 == k) = some (k, v) := by
  intro m
  induction m with
  | nil => simp [mapSet]
  | cons p rest ih =>
    unfold mapSet
    split
    · simp [List.find?]
    · rename_i hne
      rw [List.find?]
      have : (p.1 == k) = false := by
        simp only [beq_eq_false_iff_ne]
        exact hne
      rw [this]
      exact ih

theorem mapSet_find_other (k k' : String) (v : Range × CommentRangeAction)
    (hkk : k' ≠ k) :
    ∀ m : FoundMap,
      (mapSet m k v).find? (fun q => q.1 == k') =
        m.find? (fun q => q.1 == k') := by
  intro m
  induction m with
  | nil =>
    simp only [mapSet, List.find?]
    have : (k == k') = false := by
      simp only [beq_eq_false_iff_ne]
      exact fun h => hkk h.symm
    rw [this]
  | cons p rest ih =>
    unfold mapSet
    split
    · rename_i heq
      rw [List.find?, List.find?]
      have h1 : (k == k') = false := by
        simp only [beq_eq_false_iff_ne]
        exact fun h => hkk h.symm
      have h2 : (p.1 == k') = false := by
        simp only [beq_eq_false_iff_ne]
        rw [heq]
        exact fun h => hkk h.symm
      rw [h1, h2]
    · rw [List.find?, List.find?]
      cases hpk : (p.1 == k') with
      | true => rfl
      | false => exact ih

theorem mapSet_mem {k : String} {v : Range × CommentRangeAction}
    {m : FoundMap} {p : String × (Range × CommentRangeAction)}
    (hp : p ∈ mapSet m k v) : p = (k, v) ∨ p ∈ m := by
  induction m with
  | nil => simpa [mapSet] using hp
  | cons q rest ih =>
    unfold mapSet at hp
    split at hp
    · rcases List.mem_cons.mp hp with h | h
      · exact Or.inl h
      · exact Or.inr (List.mem_cons_self q rest |> fun _ => List.mem_cons.mpr (Or.inr h))
    · rcases List.mem_cons.mp hp with h | h
      · exact Or.inr (List.mem_cons.mpr (Or.inl h))
      · rcases ih h with h2 | h2
        · exact Or.inl h2
        · exact Or.inr (List.mem_cons.mpr (Or.inr h2))

theorem mapSet_keys_nodup {k : String} {v : Range × CommentRangeAction}
    {m : FoundMap} (h : (m.map Prod.fst).Nodup) :
    ((mapSet m k v).map Prod.fst).Nodup := by
  induction m with
  | nil => simp [mapSet]
  | cons q rest ih =>
    unfold mapSet
    split
    · rename_i heq
      simp only [List.map_cons, List.nodup_cons] at h ⊢
      exact ⟨by rw [← heq]; exact h.1, h.2⟩
    · rename_i hne
      simp only [List.map_cons, List.nodup_cons] at h ⊢
      refine ⟨?_, ih h.2⟩
      intro hmem
      simp only [List.mem_map] at hmem
      obtain ⟨p, hp, hp1⟩ := hmem
      rcases mapSet_mem hp with rfl | hpm
      · exact hne hp1.symm
      · exact h.1 (List.mem_map.mpr ⟨p, hpm, hp1⟩)

@[simp]
theorem spanFold_nil (acc : Option Range) : spanFold acc [] = acc := rfl

@[simp]
theorem spanFold_cons_none (r : Range) (l : List Range) :
    spanFold none (r :: l) = spanFold (some r) l := rfl

@[simp]
theorem spanFold_cons_some (a r : Range) (l : List Range) :
    spanFold (some a) (r :: l) = spanFold (some (mergeRange r a)) l := rfl

theorem spanFold_some_spec :
    ∀ (l : List Range) (a : Range), a.isNormalized →
    (∀ r ∈ l, r.isNormalized) →
    ∃ b, spanFold (some a) l = some b ∧ b.isNormalized ∧
      (∀ x : Int, b.startLineNumber ≤ x ↔
        a.startLineNumber ≤ x ∨ ∃ s ∈ l, s.startLineNumber ≤ x) ∧
      (∀ x : Int, x ≤ b.endLineNumber ↔
        x ≤ a.endLineNumber ∨ ∃ s ∈ l, x ≤ s.endLineNumber) := by
  intro l
  induction l with
  | nil =>
    intro a ha _
    exact ⟨a, rfl, ha, fun x => by simp, fun x => by simp⟩
  | cons r l ih =>
    intro a ha hl
    have hr : r.isNormalized := hl r (List.mem_cons_self r l)
    have hm := mergeRange_spec hr ha
    obtain ⟨b, hb, hbn, hbs, hbe⟩ := ih (mergeRange r a) hm.1
      (fun s hs => hl s (List.mem_cons.mpr (Or.inr hs)))
    refine ⟨b, by rw [spanFold_cons_some]; exact hb, hbn, fun x => ?_, fun x => ?_⟩
    · rw [hbs x, hm.2.1, min_le_iff]
      simp only [List.mem_cons, exists_eq_or_imp]
      tauto
    · rw [hbe x, hm.2.2, le_max_iff]
      simp only [List.mem_cons, exists_eq_or_imp]
      tauto

theorem spanFold_none_spec (l : List Range) (hl : ∀ r ∈ l, r.isNormalized)
    (hne : l ≠ []) :
    ∃ b, spanFold none l = some b ∧ b.isNormalized ∧
      (∀ x : Int, b.startLineNumber ≤ x ↔ ∃ s ∈ l, s.startLineNumber ≤ x) ∧
      (∀ x : Int, x ≤ b.endLineNumber ↔ ∃ s ∈ l, x ≤ s.endLineNumber) := by
  cases l with
  | nil => exact absurd rfl hne
  | cons r l =>
    obtain ⟨b, hb, hbn, hbs, hbe⟩ := spanFold_some_spec l r
      (hl r (List.mem_cons_self r l))
      (fun s hs => hl s (List.mem_cons.mpr (Or.inr hs)))
    refine ⟨b, by rw [spanFold_cons_none]; exact hb, hbn, fun x => ?_, fun x => ?_⟩
    · rw [hbs x]
      simp only [List.mem_cons, exists_eq_or_imp]
    · rw [hbe x]
      simp only [List.mem_cons, exists_eq_or_imp]

/-- The loop body rewritten with the getCommentAction projections reduced;
definitionally equal to matchedActionStep. -/
theorem matchedActionStep_eq (H : Range) (m : FoundMap)
    (d : CommentingRangeDecoration) :
    matchedActionStep H m d =
      match d.activeRange with
      | none => m
      | some r =>
        if areRangesIntersectingOrTouchingByLine r H = true then
          match m.find? (fun p => p.1 == d.ownerId) with
          | some found =>
            if found.2.2.crInfo = d.crInfo then
              mapSet m d.ownerId (mergeRange r found.2.1, d.getCommentAction)
            else mapSet m d.ownerId (r, d.getCommentAction)
          | none => mapSet m d.ownerId (r, d.getCommentAction)
        else m := rfl

theorem matchedActionStep_none {d : CommentingRangeDecoration}
    (hde : d.activeRange = none) (H : Range) (m : FoundMap) :
    matchedActionStep H m d = m := by
  rw [matchedActionStep_eq, hde]

theorem matchedActionStep_skip {d : CommentingRangeDecoration} {r : Range}
    (hde : d.activeRange = some r)
    (ht : ¬areRangesIntersectingOrTouchingByLine r H = true) (m : FoundMap) :
    matchedActionStep H m d = m := by
  rw [matchedActionStep_eq, hde]
  dsimp only
  rw [if_neg ht]

theorem matchedActionStep_new {d : CommentingRangeDecoration} {r : Range}
    {m : FoundMap} (hde : d.activeRange = some r)
    (ht : areRangesIntersectingOrTouchingByLine r H = true)
    (hf : m.find? (fun p => p.1 == d.ownerId) = none) :
    matchedActionStep H m d = mapSet m d.ownerId (r, d.getCommentAction) := by
  rw [matchedActionStep_eq, hde]
  dsimp only
  rw [if_pos ht, hf]

theorem matchedActionStep_merge {d : CommentingRangeDecoration} {r : Range}
    {m : FoundMap} {found : String × (Range × CommentRangeAction)}
    (hde : d.activeRange = some r)
    (ht : areRangesIntersectingOrTouchingByLine r H = true)
    (hf : m.find? (fun p => p.1 == d.ownerId) = some found)
    (hc : found.2.2.crInfo = d.crInfo) :
    matchedActionStep H m d =
      mapSet m d.ownerId (mergeRange r found.2.1, d.getCommentAction) := by
  rw [matchedActionStep_eq, hde]
  dsimp only
  rw [if_pos ht, hf]
  dsimp only
  rw [if_pos hc]

theorem matchedActionStep_replace {d : CommentingRangeDecoration} {r : Range}
    {m : FoundMap} {found : String × (Range × CommentRangeAction)}
    (hde : d.activeRange = some r)
    (ht : areRangesIntersectingOrTouchingByLine r H = true)
    (hf : m.find? (fun p => p.1 == d.ownerId) = some found)
    (hc : ¬found.2.2.crInfo = d.crInfo) :
    matchedActionStep H m d = mapSet m d.ownerId (r, d.getCommentAction) := by
  rw [matchedActionStep_eq, hde]
  dsimp only
  rw [if_pos ht, hf]
  dsimp only
  rw [if_neg hc]

theorem ownerMatched_cons_none {d : CommentingRangeDecoration}
    (hde : d.activeRange = none) (ds : List CommentingRangeDecoration)
    (O : String) (H : Range) :
    ownerMatchedActiveRanges (d :: ds) O H =
      ownerMatchedActiveRanges ds O H := by
  unfold ownerMatchedActiveRanges
  rw [List.filterMap_cons, hde]
  rfl

theorem ownerMatched_cons_skip {d : CommentingRangeDecoration} {r : Range}
    (hde : d.activeRange = some r) (ds : List CommentingRangeDecoration)
    (O : String) (H : Range)
    (hno : ¬(d.ownerId = O ∧ areRangesIntersectingOrTouchingByLine r H = true)) :
    ownerMatchedActiveRanges (d :: ds) O H =
      ownerMatchedActiveRanges ds O H := by
  unfold ownerMatchedActiveRanges
  rw [List.filterMap_cons, hde]
  simp only [Option.some_bind]
  rw [if_neg hno]

theorem ownerMatched_cons_hit {d : CommentingRangeDecoration} {r : Range}
    (hde : d.activeRange = some r) (ds : List CommentingRangeDecoration)
    (O : String) (H : Range)
    (hyes : d.ownerId = O ∧ areRangesIntersectingOrTouchingByLine r H = true) :
    ownerMatchedActiveRanges (d :: ds) O H =
      r :: ownerMatchedActiveRanges ds O H := by
  unfold ownerMatchedActiveRanges
  rw [List.filterMap_cons, hde]
  simp only [Option.some_bind]
  rw [if_pos hyes]

/-- Tracking the owner O entry of the foundHoverActions map through the
fold of getMatchedCommentAction: when all decorations of O share the same
commentingRangesInfo object, the entry range is the running bounding merge
of the touching claims of O. -/
theorem trackO (H : Range) (O : String) (c : Nat) :
    ∀ (ds : List CommentingRangeDecoration) (m : FoundMap),
    (∀ d ∈ ds, ∀ r, d.activeRange = some r → r.isNormalized) →
    (∀ d ∈ ds, d.ownerId = O → d.crInfo = c) →
    (∀ p, m.find? (fun q => q.1 == O) = some p →
      p.2.2.crInfo = c ∧ p.2.1.isNormalized) →
    (((ds.foldl (matchedActionStep H) m).find? (fun q => q.1 == O)).map
        (fun p => p.2.1) =
      spanFold ((m.find? (fun q => q.1 == O)).map (fun p => p.2.1))
        (ownerMatchedActiveRanges ds O H)) ∧
    (∀ p, (ds.foldl (matchedActionStep H) m).find? (fun q => q.1 == O) =
        some p → p.2.2.crInfo = c ∧ p.2.1.isNormalized) := by
  intro ds
  induction ds with
  | nil =>
    intro m _ _ hm
    exact ⟨rfl, hm⟩
  | cons d ds ih =>
    intro m hnorm hcr hm
    have hnorm2 : ∀ d2 ∈ ds, ∀ r, d2.activeRange = some r → r.isNormalized :=
      fun d2 h2 => hnorm d2 (List.mem_cons.mpr (Or.inr h2))
    have hcr2 : ∀ d2 ∈ ds, d2.ownerId = O → d2.crInfo = c :=
      fun d2 h2 => hcr d2 (List.mem_cons.mpr (Or.inr h2))
    rw [List.foldl_cons]
    rcases hde : d.activeRange with _ | r
    · rw [matchedActionStep_none hde,
        ownerMatched_cons_none hde ds O H]
      exact ih m hnorm2 hcr2 hm
    · by_cases ht : areRangesIntersectingOrTouchingByLine r H = true
      · by_cases ho : d.ownerId = O
        · subst ho
          have hrn : r.isNormalized :=
            hnorm d (List.mem_cons_self d ds) r hde
          have hdc : d.crInfo = c := hcr d (List.mem_cons_self d ds) rfl
          rw [ownerMatched_cons_hit hde ds d.ownerId H ⟨rfl, ht⟩]
          rcases hf : m.find? (fun q => q.1 == d.ownerId) with _ | found
          · rw [matchedActionStep_new hde ht hf, hf]
            have hself := mapSet_find_self d.ownerId (r, d.getCommentAction) m
            have hmnew : ∀ p, (mapSet m d.ownerId
                (r, d.getCommentAction)).find? (fun q => q.1 == d.ownerId) =
                some p → p.2.2.crInfo = c ∧ p.2.1.isNormalized := by
              intro p hp
              rw [hself] at hp
              obtain rfl := Option.some.inj hp
              exact ⟨hdc, hrn⟩
            have := ih (mapSet m d.ownerId (r, d.getCommentAction))
              hnorm2 hcr2 hmnew
            refine ⟨?_, this.2⟩
            rw [this.1, hself]
            rfl
          · have hfc := hm found hf
            rw [matchedActionStep_merge hde ht hf (by rw [hfc.1, hdc]), hf]
            have hmp := mergeRange_spec hrn hfc.2
            have hself := mapSet_find_self d.ownerId
              (mergeRange r found.2.1, d.getCommentAction) m
            have hmnew : ∀ p, (mapSet m d.ownerId
                (mergeRange r found.2.1, d.getCommentAction)).find?
                (fun q => q.1 == d.ownerId) = some p →
                p.2.2.crInfo = c ∧ p.2.1.isNormalized := by
              intro p hp
              rw [hself] at hp
              obtain rfl := Option.some.inj hp
              exact ⟨hdc, hmp.1⟩
            have := ih (mapSet m d.ownerId
              (mergeRange r found.2.1, d.getCommentAction)) hnorm2 hcr2 hmnew
            refine ⟨?_, this.2⟩
            rw [this.1, hself]
            rfl
        · have hcontrib := ownerMatched_cons_skip hde ds O H
            (fun hc => ho hc.1)
          rw [hcontrib]
          have hfind : ∀ v, (mapSet m d.ownerId v).find? (fun q => q.1 == O) =
              m.find? (fun q => q.1 == O) :=
            fun v => mapSet_find_other d.ownerId O v (fun h => ho h.symm) m
          rcases hf : m.find? (fun q => q.1 == d.ownerId) with _ | found
          · rw [matchedActionStep_new hde ht hf]
            have hmnew : ∀ p, (mapSet m d.ownerId
                (r, d.getCommentAction)).find? (fun q => q.1 == O) = some p →
                p.2.2.crInfo = c ∧ p.2.1.isNormalized := by
              intro p hp
              rw [hfind] at hp
              exact hm p hp
            have := ih (mapSet m d.ownerId (r, d.getCommentAction))
              hnorm2 hcr2 hmnew
            refine ⟨?_, this.2⟩
            rw [this.1, hfind]
          · by_cases hcc : found.2.2.crInfo = d.crInfo
            · rw [matchedActionStep_merge hde ht hf hcc]
              have hmnew : ∀ p, (mapSet m d.ownerId
                  (mergeRange r found.2.1, d.getCommentAction)).find?
                  (fun q => q.1 == O) = some p →
                  p.2.2.crInfo = c ∧ p.2.1.isNormalized := by
                intro p hp
                rw [hfind] at hp
                exact hm p hp
              have := ih (mapSet m d.ownerId
                (mergeRange r found.2.1, d.getCommentAction)) hnorm2 hcr2 hmnew
              refine ⟨?_, this.2⟩
              rw [this.1, hfind]
            · rw [matchedActionStep_replace hde ht hf hcc]
              have hmnew : ∀ p, (mapSet m d.ownerId
                  (r, d.getCommentAction)).find? (fun q => q.1 == O) = some p →
                  p.2.2.crInfo = c ∧ p.2.1.isNormalized := by
                intro p hp
                rw [hfind] at hp
                exact hm p hp
              have := ih (mapSet m d.ownerId (r, d.getCommentAction))
                hnorm2 hcr2 hmnew
              refine ⟨?_, this.2⟩
              rw [this.1, hfind]
      · rw [matchedActionStep_skip hde ht m,
          ownerMatched_cons_skip hde ds O H (fun hc => ht hc.2)]
        exact ih m hnorm2 hcr2 hm

theorem matchedActionStep_mem {H : Range} {m : FoundMap}
    {d : CommentingRangeDecoration}
    {p : String × (Range × CommentRangeAction)}
    (hp : p ∈ matchedActionStep H m d) :
    p ∈ m ∨ (p.1 = d.ownerId ∧ p.2.2 = d.getCommentAction) := by
  rw [matchedActionStep_eq] at hp
  split at hp
  · exact Or.inl hp
  · split at hp
    · split at hp
      · split at hp
        · rcases mapSet_mem hp with h | h
          · subst h
            exact Or.inr ⟨rfl, rfl⟩
          · exact Or.inl h
        · rcases mapSet_mem hp with h | h
          · subst h
            exact Or.inr ⟨rfl, rfl⟩
          · exact Or.inl h
      · rcases mapSet_mem hp with h | h
        · subst h
          exact Or.inr ⟨rfl, rfl⟩
        · exact Or.inl h
    · exact Or.inl hp

theorem matchedActionStep_keys_nodup {H : Range} {m : FoundMap}
    {d : CommentingRangeDecoration} (h : (m.map Prod.fst).Nodup) :
    ((matchedActionStep H m d).map Prod.fst).Nodup := by
  rw [matchedActionStep_eq]
  split
  · exact h
  · split
    · split
      · split
        · exact mapSet_keys_nodup h
        · exact mapSet_keys_nodup h
      · exact mapSet_keys_nodup h
    · exact h

theorem foldl_inv1 (H : Range) :
    ∀ (ds : List CommentingRangeDecoration) (m : FoundMap),
    (∀ p ∈ m, p.2.2.ownerId = p.1) →
    ∀ p ∈ ds.foldl (matchedActionStep H) m, p.2.2.ownerId = p.1 := by
  intro ds
  induction ds with
  | nil => intro m hm; exact hm
  | cons d ds ih =>
    intro m hm
    rw [List.foldl_cons]
    refine ih (matchedActionStep H m d) ?_
    intro p hp
    rcases matchedActionStep_mem hp with h | h
    · exact hm p h
    · rw [h.2, h.1]
      rfl

theorem foldl_keys_nodup (H : Range) :
    ∀ (ds : List CommentingRangeDecoration) (m : FoundMap),
    (m.map Prod.fst).Nodup →
    ((ds.foldl (matchedActionStep H) m).map Prod.fst).Nodup := by
  intro ds
  induction ds with
  | nil => intro m hm; exact hm
  | cons d ds ih =>
    intro m hm
    rw [List.foldl_cons]
    exact ih (matchedActionStep H m d) (matchedActionStep_keys_nodup hm)

theorem find?_eq_of_mem_nodup {m : FoundMap} (hnd : (m.map Prod.fst).Nodup)
    {p : String × (Range × CommentRangeAction)} (hp : p ∈ m) :
    m.find? (fun q => q.1 == p.1) = some p := by
  induction m with
  | nil => cases hp
  | cons q rest ih =>
    simp only [List.map_cons, List.nodup_cons] at hnd
    rcases List.mem_cons.mp hp with rfl | hp2
    · simp [List.find?]
    · rw [List.find?]
      cases hq : (q.1 == p.1) with
      | true =>
        exfalso
        have hqe : q.1 = p.1 := by simpa using hq
        exact hnd.1 (List.mem_map.mpr ⟨p, hp2, hqe.symm⟩)
      | false => exact ih hnd.2 hp2

/-- Claim C2: for every defined hit range H, an owner O appears in the
result of getMatchedCommentAction exactly when the bounding union of the
claims of O that touch or intersect H by line contains H entirely on both
line endpoints, provided the live claim ranges are normalized and all
decorations of O carry the same underlying commentingRangesInfo object. -/
theorem c2_merge_correctness (infos : List ICommentInfo)
    (ds : List CommentingRangeDecoration) (H : Range) (O : String) (c : Nat)
    (hnorm : ∀ d ∈ ds, ∀ r, d.activeRange = some r → r.isNormalized)
    (hcr : ∀ d ∈ ds, d.ownerId = O → d.crInfo = c) :
    (∃ a ∈ getMatchedCommentAction infos ds (some H), a.ownerId = O) ↔
    ((∃ r ∈ ownerMatchedActiveRanges ds O H,
        r.startLineNumber ≤ H.startLineNumber) ∧
     (∃ r ∈ ownerMatchedActiveRanges ds O H,
        H.endLineNumber ≤ r.endLineNumber)) := by
  have hinv1 : ∀ p ∈ ds.foldl (matchedActionStep H) [],
      p.2.2.ownerId = p.1 :=
    foldl_inv1 H ds [] (fun p hp => absurd hp (List.not_mem_nil p))
  have hinv2 : ((ds.foldl (matchedActionStep H) []).map Prod.fst).Nodup :=
    foldl_keys_nodup H ds [] (by simp)
  have htrack := trackO H O c ds [] hnorm hcr
    (fun p hp => by simp [List.find?] at hp)
  have hSn : ∀ r ∈ ownerMatchedActiveRanges ds O H, r.isNormalized := by
    intro r hr
    unfold ownerMatchedActiveRanges at hr
    simp only [List.mem_filterMap, Option.bind_eq_some] at hr
    obtain ⟨d, hd, r2, hr2, hif⟩ := hr
    split at hif
    · obtain rfl := Option.some.inj hif
      exact hnorm d hd _ hr2
    · exact Option.noConfusion hif
  simp only [List.find?, Option.map_none'] at htrack
  constructor
  · rintro ⟨a, ha, hao⟩
    unfold getMatchedCommentAction at ha
    simp only [List.mem_map, List.mem_filter, Bool.and_eq_true,
      decide_eq_true_eq] at ha
    obtain ⟨pr, ⟨⟨p, hpm, rfl⟩, hc1, hc2⟩, rfl⟩ := ha
    have hkey : p.1 = O := by
      rw [← hinv1 p hpm]
      exact hao
    have hfind : (ds.foldl (matchedActionStep H) []).find?
        (fun q => q.1 == O) = some p := by
      rw [← hkey]
      exact find?_eq_of_mem_nodup hinv2 hpm
    rw [hfind] at htrack
    have hspan : some p.2.1 =
        spanFold none (ownerMatchedActiveRanges ds O H) := htrack.1
    have hne : ownerMatchedActiveRanges ds O H ≠ [] := by
      intro he
      rw [he] at hspan
      exact Option.noConfusion hspan
    obtain ⟨b, hb, _, hbs, hbe⟩ := spanFold_none_spec _ hSn hne
    rw [hb] at hspan
    obtain hpb := Option.some.inj hspan
    constructor
    · exact (hbs H.startLineNumber).mp (by rw [← hpb]; exact hc1)
    · exact (hbe H.endLineNumber).mp (by rw [← hpb]; exact hc2)
  · rintro ⟨⟨r1, hr1, hle1⟩, ⟨r2, hr2, hle2⟩⟩
    have hne : ownerMatchedActiveRanges ds O H ≠ [] := by
      intro he
      rw [he] at hr1
      exact List.not_mem_nil r1 hr1
    obtain ⟨b, hb, _, hbs, hbe⟩ := spanFold_none_spec _ hSn hne
    rw [hb] at htrack
    rcases hfind : (ds.foldl (matchedActionStep H) []).find?
        (fun q => q.1 == O) with _ | p
    · rw [hfind] at htrack
      exact Option.noConfusion htrack.1
    · rw [hfind] at htrack
      have hpb : p.2.1 = b := Option.some.inj htrack.1
      have hpm : p ∈ ds.foldl (matchedActionStep H) [] :=
        List.mem_of_find?_eq_some hfind
    

      have hkey : p.1 = O := by
        have := List.find?_some hfind
        simpa using this
      refine ⟨p.2.2, ?_, by rw [hinv1 p hpm, hkey]⟩
      unfold getMatchedCommentAction
      simp only [List.mem_map, List.mem_filter, Bool.and_eq_true,
        decide_eq_true_eq]
      refine ⟨p.2, ⟨⟨p, hpm, rfl⟩, ?_, ?_⟩, rfl⟩
      · rw [hpb]
        exact (hbs H.startLineNumber).mpr ⟨r1, hr1, hle1⟩
      · rw [hpb]
        exact (hbe H.endLineNumber).mpr ⟨r2, hr2, hle2⟩

/-- Two touching one-line claims of the same owner and the same underlying
commentingRangesInfo object, as left by the tiling split. -/
def sampleClaimOne : CommentingRangeDecoration :=
  ⟨"ownerA", none, none, ⟨1, 1, 1, 1⟩, DecorationOptionsKind.plain, 5, false,
    some ⟨1, 1, 1, 1⟩⟩

def sampleClaimTwo : CommentingRangeDecoration :=
  ⟨"ownerA", none, none, ⟨2, 1, 2, 1⟩, DecorationOptionsKind.plain, 5, false,
    some ⟨2, 1, 2, 1⟩⟩

/-- A claim of the same owner through a different commentingRangesInfo
object. -/
def sampleClaimOtherInfo : CommentingRangeDecoration :=
  ⟨"ownerA", none, none, ⟨2, 1, 2, 1⟩, DecorationOptionsKind.plain, 6, false,
    some ⟨2, 1, 2, 1⟩⟩

/-- Witness for the merge-correctness claim: claims at lines 1 and 2 of
one owner merge to the bounding range of lines 1 to 2, so the hit range
of lines 1 to 2 returns the owner while the hit range of lines 1 to 3
does not. -/
theorem c2_merge_correctness_witness :
    (∃ a ∈ getMatchedCommentAction [] [sampleClaimOne, sampleClaimTwo]
      (some ⟨1, 1, 2, 1⟩), a.ownerId = "ownerA") ∧
    ¬(∃ a ∈ getMatchedCommentAction [] [sampleClaimOne, sampleClaimTwo]
      (some ⟨1, 1, 3, 1⟩), a.ownerId = "ownerA") :=
  ⟨(c2_merge_correctness [] [sampleClaimOne, sampleClaimTwo] ⟨1, 1, 2, 1⟩
      "ownerA" 5 (by decide) (by decide)).mpr (by decide),
   fun h => absurd ((c2_merge_correctness [] [sampleClaimOne, sampleClaimTwo]
      ⟨1, 1, 3, 1⟩ "ownerA" 5 (by decide) (by decide)).mp h) (by decide)⟩

theorem result_owner_sublist (m : FoundMap)
    (h1 : ∀ p ∈ m, p.2.2.ownerId = p.1)
    (cond : Range × CommentRangeAction → Bool) :
    (((m.map (fun p => p.2)).filter cond).map
      (fun p => p.2.ownerId)).Sublist (m.map Prod.fst) := by
  induction m with
  | nil => simp
  | cons q rest ih =>
    have hq := h1 q (List.mem_cons_self q rest)
    have hrest : ∀ p ∈ rest, p.2.2.ownerId = p.1 :=
      fun p hp => h1 p (List.mem_cons.mpr (Or.inr hp))
    simp only [List.map_cons, List.filter_cons]
    split
    · simp only [List.map_cons]
      rw [hq]
      exact List.Sublist.cons₂ q.1 (ih hrest)
    · exact List.Sublist.cons q.1 (ih hrest)

/-- Claim C9: the accumulator of getMatchedCommentAction is keyed by
ownerId alone, so for every hit range the result holds at most one action
per owner; and when the same owner matches through two different
commentingRangesInfo objects the later match replaces the earlier one
instead of merging: the two sample claims at lines 1 and 2 with different
info objects leave only the second claim range of line 2, so the hit
range of lines 1 to 2 is no longer contained and nothing is returned,
while hit range line 2 returns only the action of the later object. -/
theorem c9_owner_keyed_accumulator :
    (∀ (infos : List ICommentInfo) (ds : List CommentingRangeDecoration)
      (H : Range),
      ((getMatchedCommentAction infos ds (some H)).map
        (fun a => a.ownerId)).Nodup) ∧
    getMatchedCommentAction [] [sampleClaimOne, sampleClaimOtherInfo]
      (some ⟨1, 1, 2, 1⟩) = [] ∧
    getMatchedCommentAction [] [sampleClaimOne, sampleClaimOtherInfo]
      (some ⟨2, 1, 2, 1⟩) = [⟨"ownerA", none, none, 6⟩] := by
  refine ⟨?_, by decide, by decide⟩
  intro infos ds H
  have h1 : ∀ p ∈ ds.foldl (matchedActionStep H) [], p.2.2.ownerId = p.1 :=
    foldl_inv1 H ds [] (fun p hp => absurd hp (List.not_mem_nil p))
  have h2 : ((ds.foldl (matchedActionStep H) []).map Prod.fst).Nodup :=
    foldl_keys_nodup H ds [] (by simp)
  simp only [getMatchedCommentAction]
  rw [List.map_map]
  exact List.Nodup.sublist (result_owner_sublist _ h1 _) h2

/-- The synchronous outcome of addCommentAtLine together with the value of
the addInProgress flag after the call. -/
inductive AddOutcome where
  | threw (message : String)
  | resolvedEmpty
  | contextMenu (actions : List CommentRangeAction)
  | quickPick (actions : List CommentRangeAction)
  | created (ownerId : String)
deriving DecidableEq, Repr

/-- addCommentAtLine of the controller: when no provider action matches the
range it resets addInProgress and throws the user-input error; with no
editor model it resets the flag and resolves; with exactly one action it
creates the thread template through addCommentAtLine2 (whose
processNextThreadToAdd resets the flag); with several actions it opens a
context menu or quick pick for disambiguation leaving the flag set until
the menu callback clears it. -/
def addCommentAtLine (infos : List ICommentInfo)
    (decorations : List CommentingRangeDecoration) (hasModel : Bool)
    (range : Option Range) (hasMouseEvent : Bool) : Bool × AddOutcome :=
  match getMatchedCommentAction infos decorations range, hasModel with
  | [], _ =>
      (false, AddOutcome.threw
        "There are no commenting ranges at the current position.")
  | _ :: _, false => (false, AddOutcome.resolvedEmpty)
  | [a], true => (false, AddOutcome.created a.ownerId)
  | a :: b :: rest, true =>
      if hasMouseEvent ∧ range.isSome then
        (true, AddOutcome.contextMenu (a :: b :: rest))
      else (true, AddOutcome.quickPick (a :: b :: rest))

/-- Claim C8: whenever getMatchedCommentAction returns no action for the
requested range, addCommentAtLine synchronously throws the user-input
error with the addInProgress flag reset, regardless of editor state or
how the request was made. -/
theorem c8_add_no_provider_fails_fast (infos : List ICommentInfo)
    (decorations : List CommentingRangeDecoration) (hasModel : Bool)
    (range : Option Range) (hasMouseEvent : Bool)
    (h : getMatchedCommentAction infos decorations range = []) :
    addCommentAtLine infos decorations hasModel range hasMouseEvent =
      (false, AddOutcome.threw
        "There are no commenting ranges at the current position.") := by
  unfold addCommentAtLine
  rw [h]

/-- Witness: with no providers and no decorations, any add request fails
fast. -/
theorem c8_add_no_provider_fails_fast_witness :
    addCommentAtLine [] [] true (some ⟨1, 1, 1, 1⟩) true =
      (false, AddOutcome.threw
        "There are no commenting ranges at the current position.") :=
  c8_add_no_provider_fails_fast [] [] true (some ⟨1, 1, 1, 1⟩) true (by decide)

/-- Position of the editor core. -/
structure Position where
  lineNumber : Int
  column : Int
deriving DecidableEq, Repr

/-- The scan loop of getNearestCommentingRange: coalesce touching claims
into the running contains accumulator, remember a claim containing the
sought line, skip claims strictly before (after, in reverse) the sought
line, and return the first remaining claim. -/
def nearestLoop (findLine : Int) (reverse : Bool) :
    List CommentingRangeDecoration → Option Range → Option Range
  | [], _ => none
  | d :: rest, acc =>
    match d.activeRange with
    | none => nearestLoop findLine reverse rest acc
    | some range =>
      match acc with
      | some contained =>
        if areRangesIntersectingOrTouchingByLine range contained then
          nearestLoop findLine reverse rest (some (plusRange contained range))
        else if range.startLineNumber ≤ findLine ∧
            findLine ≤ range.endLineNumber then
          nearestLoop findLine reverse rest
            (some (mkRange range.startLineNumber range.startColumn
              range.endLineNumber range.endColumn))
        else if reverse = false ∧ range.endLineNumber < findLine then
          nearestLoop findLine reverse rest (some contained)
        else if reverse = true ∧ findLine < range.startLineNumber then
          nearestLoop findLine reverse rest (some contained)
        else some range
      | none =>
        if range.startLineNumber ≤ findLine ∧
            findLine ≤ range.endLineNumber then
          nearestLoop findLine reverse rest
            (some (mkRange range.startLineNumber range.startColumn
              range.endLineNumber range.endColumn))
        else if reverse = false ∧ range.endLineNumber < findLine then
          nearestLoop findLine reverse rest none
        else if reverse = true ∧ findLine < range.startLineNumber then
          nearestLoop findLine reverse rest none
        else some range

/-- getNearestCommentingRange: scan the decorations (reversed copy when
reverse); when the loop returns nothing, fall back to the first element of
the scanned list. The outer none models the out-of-bounds access of
decorations[0] on an empty list (a TypeError in the source); some x is a
normal return of x (which is itself the possibly absent active range). -/
def getNearestCommentingRange (ds : List CommentingRangeDecoration)
    (findPosition : Position) (reverse : Bool) : Option (Option Range) :=
  let decorations := if reverse then ds.reverse else ds
  match nearestLoop findPosition.lineNumber reverse decorations none with
  | some r => some (some r)
  | none =>
    match decorations with
    | [] => none
    | d :: _ => some d.activeRange

theorem nearestLoop_skip (findLine : Int) (reverse : Bool) :
    ∀ l : List CommentingRangeDecoration,
    (∀ d ∈ l, ∀ r, d.activeRange = some r →
      if reverse then findLine < r.startLineNumber
      else r.endLineNumber < findLine) →
    nearestLoop findLine reverse l none = none := by
  intro l
  induction l with
  | nil => intro _; rfl
  | cons d rest ih =>
    intro h
    have hrest : ∀ d2 ∈ rest, ∀ r, d2.activeRange = some r →
        if reverse then findLine < r.startLineNumber
        else r.endLineNumber < findLine :=
      fun d2 h2 => h d2 (List.mem_cons.mpr (Or.inr h2))
    unfold nearestLoop
    cases hde : d.activeRange with
    | none => exact ih hrest
    | some r =>
      have hd := h d (List.mem_cons_self d rest) r hde
      dsimp only
      cases reverse with
      | false =>
        have hd2 : r.endLineNumber < findLine := by simpa using hd
        have h1 : ¬(r.startLineNumber ≤ findLine ∧
            findLine ≤ r.endLineNumber) := by omega
        have h2 : (false = false ∧ r.endLineNumber < findLine) := ⟨rfl, hd2⟩
        rw [if_neg h1, if_pos h2]
        exact ih hrest
      | true =>
        have hd2 : findLine < r.startLineNumber := by simpa using hd
        have h1 : ¬(r.startLineNumber ≤ findLine ∧
            findLine ≤ r.endLineNumber) := by omega
        have h2 : ¬(true = false ∧ r.endLineNumber < findLine) := by simp
        have h3 : (true = true ∧ findLine < r.startLineNumber) := ⟨rfl, hd2⟩
        rw [if_neg h1, if_neg h2, if_pos h3]
        exact ih hrest

/-- Claim C7: nearest-range navigation is total when at least one claim
exists (the loop either returns a claim range or the fallback reads the
first scanned decoration, possibly answering no range); with zero claims
the unconditional fallback access of the first claim is out of bounds,
modelled as the none outcome, a precondition the caller must guard. -/
theorem c7_nearest_empty_precondition :
    (∀ (ds : List CommentingRangeDecoration) (pos : Position)
      (reverse : Bool), ds ≠ [] →
      (getNearestCommentingRange ds pos reverse).isSome = true) ∧
    (∀ (pos : Position) (reverse : Bool),
      getNearestCommentingRange [] pos reverse = none) := by
  constructor
  · intro ds pos reverse hne
    unfold getNearestCommentingRange
    dsimp only
    cases h : nearestLoop pos.lineNumber reverse
        (if reverse then ds.reverse else ds) none with
    | some r => rfl
    | none =>
      cases hd : (if reverse then ds.reverse else ds) with
      | nil =>
        exfalso
        cases reverse with
        | false => exact hne (by simpa using hd)
        | true => exact hne (by simpa [List.reverse_eq_nil_iff] using hd)
      | cons d rest => rfl
  · intro pos reverse
    cases reverse <;> rfl

/-- Witness: one claim makes the query total; zero claims hit the
precondition violation. -/
theorem c7_nearest_empty_precondition_witness :
    (getNearestCommentingRange [sampleClaimOne] ⟨1, 1⟩ false).isSome = true ∧
    getNearestCommentingRange [] ⟨1, 1⟩ false = none :=
  ⟨c7_nearest_empty_precondition.1 [sampleClaimOne] ⟨1, 1⟩ false (by decide),
   c7_nearest_empty_precondition.2 ⟨1, 1⟩ false⟩

def claimLineFive : CommentingRangeDecoration :=
  ⟨"ownerA", none, none, ⟨5, 1, 5, 1⟩, DecorationOptionsKind.plain, 5, false,
    some ⟨5, 1, 5, 1⟩⟩

def claimLineTen : CommentingRangeDecoration :=
  ⟨"ownerA", none, none, ⟨10, 1, 10, 1⟩, DecorationOptionsKind.plain, 5,
    false, some ⟨10, 1, 10, 1⟩⟩

/-- Claim C4 (counterexample): with claims at lines 5 and 10,
nearest-reverse from line 3 wraps and returns the range of line 10 (the
first claim of the scanned, reversed list), not the first claim of the
original non-reversed list as the claim words it. -/
theorem c4_nearest_wrap_counterexample :
    getNearestCommentingRange [claimLineFive, claimLineTen] ⟨3, 1⟩ true =
      some claimLineTen.activeRange ∧
    getNearestCommentingRange [claimLineFive, claimLineTen] ⟨3, 1⟩ true ≠
      some claimLineFive.activeRange := by
  constructor
  · decide
  · decide

/-- Claim C4 (amended): when no claim contains the sought line and every
claim lies strictly before it (strictly after it, in reverse), the query
wraps and returns the active range of the first claim of the scanned
list: the first claim of the original list when scanning forward, the
last claim of the original list when scanning in reverse. In particular,
with claims at lines 5 and 10, nearest-forward from line 12 returns the
range of line 5 and nearest-reverse from line 3 returns the range of
line 10. -/
theorem c4_nearest_wrap_amended (ds : List CommentingRangeDecoration)
    (pos : Position) (reverse : Bool) (hne : ds ≠ [])
    (hskip : ∀ d ∈ ds, ∀ r, d.activeRange = some r →
      if reverse then pos.lineNumber < r.startLineNumber
      else r.endLineNumber < pos.lineNumber) :
    getNearestCommentingRange ds pos reverse =
      ((if reverse then ds.reverse else ds).head?).map
        (fun d => d.activeRange) := by
  have hskip2 : ∀ d ∈ (if reverse then ds.reverse else ds), ∀ r,
      d.activeRange = some r →
      if reverse then pos.lineNumber < r.startLineNumber
      else r.endLineNumber < pos.lineNumber := by
    intro d hd
    refine hskip d ?_
    cases reverse with
    | false => simpa using hd
    | true => simpa using hd
  have hloop := nearestLoop_skip pos.lineNumber reverse
    (if reverse then ds.reverse else ds) hskip2
  unfold getNearestCommentingRange
  dsimp only
  rw [hloop]
  cases hd : (if reverse then ds.reverse else ds) with
  | nil =>
    exfalso
    cases reverse with
    | false => exact hne (by simpa using hd)
    | true => exact hne (by simpa [List.reverse_eq_nil_iff] using hd)
  | cons d rest => rfl


/-- Witness for the amended wrap claim: nearest-forward from line 12 over
claims at lines 5 and 10 wraps to the claim at line 5. -/
theorem c4_nearest_wrap_amended_witness :
    getNearestCommentingRange [claimLineFive, claimLineTen] ⟨12, 1⟩ false =
      (([claimLineFive, claimLineTen] : List CommentingRangeDecoration).head?).map
        (fun d => d.activeRange) := by
  have h := c4_nearest_wrap_amended [claimLineFive, claimLineTen] ⟨12, 1⟩
    false (by decide) (by decide)
  simpa using h

/-- One comment of a thread; body is the text value (string bodies and
markdown bodies both reduce to their string value where the controller
reads them). -/
structure Comment where
  body : String
deriving DecidableEq, Repr

/-- CommentThread restricted to the fields the controller reads; the empty
string stands for an absent threadId. -/
structure CommentThread where
  threadId : String
  commentThreadHandle : Int
  resource : Option String
  range : Option Range
  comments : List Comment
  isDisposed : Bool
deriving DecidableEq, Repr

/-- ReviewZoneWidget restricted to what teardown and reconciliation read:
its owner, its thread, and the unsent user input reported by
getPendingComments (the new-comment text and the per-comment edit texts
keyed by unique comment id). -/
structure ReviewZoneWidget where
  owner : String
  commentThread : CommentThread
  pendingNewComment : Option String
  pendingEdits : List (Int × String)
deriving DecidableEq, Repr

/-- The body of the last submitted comment of the thread, when any. -/
def lastCommentBody (thread : CommentThread) : Option String :=
  (thread.comments.getLast?).map (fun c => c.body)

/-- The two keyed draft stores: owner to threadId to new-comment text, and
owner to threadId to per-comment edit texts. -/
abbrev NewCommentCache := List (String × List (String × String))

abbrev EditsCache := List (String × List (String × List (Int × String)))

/-- JS object property write: replace in place or append. -/
def storeSet {A : Type} (store : List (String × A)) (k : String) (v : A) :
    List (String × A) :=
  match store with
  | [] => [(k, v)]
  | p :: rest => if p.1 = k then (k, v) :: rest else p :: storeSet rest k v

/-- JS object property read. -/
def storeGet {A : Type} (store : List (String × A)) (k : String) :
    Option A :=
  (store.find? (fun p => p.1 == k)).map (fun p => p.2)

/-- JS delete of an object property. -/
def storeDelete {A : Type} (store : List (String × A)) (k : String) :
    List (String × A) :=
  store.filter (fun p => !(p.1 == k))

/-- The store condition of removeCommentWidgetsAndStoreCache: the
in-progress new-comment text is non-empty (truthy) and differs from the
last submitted comment body. -/
def newCommentCondition (zone : ReviewZoneWidget) : Bool :=
  match zone.pendingNewComment with
  | some t => !(t == "") && !(lastCommentBody zone.commentThread == some t)
  | none => false

/-- The new-comment half of the per-widget teardown bookkeeping: store the
draft under (owner, threadId) when the condition holds (creating the owner
store if needed), else delete any stale entry from an existing owner
store. -/
def storeCacheNewComment (cache : NewCommentCache)
    (zone : ReviewZoneWidget) : NewCommentCache :=
  if newCommentCondition zone then
    let store := (storeGet cache zone.owner).getD []
    storeSet cache zone.owner
      (storeSet store zone.commentThread.threadId
        (zone.pendingNewComment.getD ""))
  else
    match storeGet cache zone.owner with
    | some store =>
        storeSet cache zone.owner
          (storeDelete store zone.commentThread.threadId)
    | none => cache

/-- The edits half of the per-widget teardown bookkeeping: store the edits
map when non-empty, else delete any stale entry. -/
def storeCacheEdits (cache : EditsCache) (zone : ReviewZoneWidget) :
    EditsCache :=
  if !zone.pendingEdits.isEmpty then
    let store := (storeGet cache zone.owner).getD []
    storeSet cache zone.owner
      (storeSet store zone.commentThread.threadId zone.pendingEdits)
  else
    match storeGet cache zone.owner with
    | some store =>
        storeSet cache zone.owner
          (storeDelete store zone.commentThread.threadId)
    | none => cache

/-- removeCommentWidgetsAndStoreCache: evict the drafts of every live
widget into the two caches and clear the widget list. -/
def removeCommentWidgetsAndStoreCache
    (caches : NewCommentCache × EditsCache)
    (widgets : List ReviewZoneWidget) :
    (NewCommentCache × EditsCache) × List ReviewZoneWidget :=
  (widgets.foldl
    (fun c z => (storeCacheNewComment c.1 z, storeCacheEdits c.2 z)) caches,
   [])

/-- The initial draft text setComments resolves for a redisplayed thread
from the new-comment cache. -/
def setCommentsPendingComment (cache : NewCommentCache) (owner : String)
    (thread : CommentThread) : Option String :=
  match storeGet cache owner with
  | some store => storeGet store thread.threadId
  | none => none

theorem storeGet_storeSet_self {A : Type} (k : String) (v : A) :
    ∀ store : List (String × A), storeGet (storeSet store k v) k = some v := by
  intro store
  induction store with
  | nil =>
    unfold storeSet storeGet
    rw [List.find?_cons_of_pos _ (by simp)]
    rfl
  | cons p rest ih =>
    unfold storeSet
    split
    · unfold storeGet
      rw [List.find?_cons_of_pos _ (by simp)]
      rfl
    · rename_i hne
      unfold storeGet at ih ⊢
      rw [List.find?_cons_of_neg _ (by simpa using hne)]
      exact ih

theorem storeGet_storeDelete_self {A : Type} (k : String) :
    ∀ store : List (String × A), storeGet (storeDelete store k) k = none := by
  intro store
  induction store with
  | nil => rfl
  | cons p rest ih =>
    unfold storeDelete at ih ⊢
    rw [List.filter_cons]
    by_cases h : p.1 = k
    · have hb : (!(p.1 == k)) = false := by simp [h]
      rw [hb]
      have hf : ¬(false = true) := by simp
      rw [if_neg hf]
      exact ih
    · have hb : (!(p.1 == k)) = true := by simp [h]
      rw [hb, if_pos rfl]
      unfold storeGet at ih ⊢
      have hpk : ¬((fun q : String × A => q.1 == k) p = true) := by
        simpa using h
      rw [@List.find?_cons_of_neg (String × A) (fun q => q.1 == k) p
        (List.filter (fun q => !q.1 == k) rest) hpk]
      exact ih

/-- Claim C3: on widget teardown a new-comment draft is stored under
(owner, threadId) exactly when the in-progress text is non-empty and
differs from the last submitted comment body (a stale entry is deleted
otherwise), and a thread redisplayed by setComments after the teardown
receives exactly that stored text as its initial draft; concretely, with
last submitted body of the string a and in-progress text ab the redisplay
shows ab, while with in-progress text reset to a nothing is preserved. -/
theorem c3_draft_round_trip :
    (∀ (cacheNew : NewCommentCache) (cacheEdits : EditsCache)
      (zone : ReviewZoneWidget),
      setCommentsPendingComment
        ((removeCommentWidgetsAndStoreCache (cacheNew, cacheEdits)
          [zone]).1.1) zone.owner zone.commentThread =
      (match zone.pendingNewComment with
       | some t =>
         if t ≠ "" ∧ lastCommentBody zone.commentThread ≠ some t
         then some t else none
       | none => none)) ∧
    setCommentsPendingComment
      ((removeCommentWidgetsAndStoreCache (([], []) : NewCommentCache × EditsCache)
        [⟨"ownerA", ⟨"threadOne", 1, some "uriA", none, [⟨"a"⟩], false⟩,
          some "ab", []⟩]).1.1) "ownerA"
      ⟨"threadOne", 1, some "uriA", none, [⟨"a"⟩], false⟩ = some "ab" ∧
    setCommentsPendingComment
      ((removeCommentWidgetsAndStoreCache
        (([("ownerA", [("threadOne", "old")])], []) :
          NewCommentCache × EditsCache)
        [⟨"ownerA", ⟨"threadOne", 1, some "uriA", none, [⟨"a"⟩], false⟩,
          some "a", []⟩]).1.1) "ownerA"
      ⟨"threadOne", 1, some "uriA", none, [⟨"a"⟩], false⟩ = none := by
  refine ⟨?_, by decide, by decide⟩
  intro cacheNew cacheEdits zone
  unfold removeCommentWidgetsAndStoreCache
  rw [List.foldl_cons, List.foldl_nil]
  dsimp only
  unfold storeCacheNewComment
  cases hp : zone.pendingNewComment with
  | none =>
    have hcb : ¬(newCommentCondition zone = true) := by
      simp [newCommentCondition, hp]
    rw [if_neg hcb]
    cases hs : storeGet cacheNew zone.owner with
    | none =>
      dsimp only
      unfold setCommentsPendingComment
      rw [hs]
    | some store =>
      dsimp only
      unfold setCommentsPendingComment
      rw [storeGet_storeSet_self]
      exact storeGet_storeDelete_self zone.commentThread.threadId store
  | some t =>
    by_cases hcond : t ≠ "" ∧ lastCommentBody zone.commentThread ≠ some t
    · have hcb : newCommentCondition zone = true := by
        unfold newCommentCondition
        rw [hp]
        simp only [Bool.and_eq_true, Bool.not_eq_true', beq_eq_false_iff_ne]
        exact ⟨hcond.1, fun h => hcond.2 h⟩
      rw [if_pos hcb]
      dsimp only
      rw [if_pos hcond]
      unfold setCommentsPendingComment
      rw [storeGet_storeSet_self]
      dsimp only
      rw [storeGet_storeSet_self]
      rfl
    · have hcb : ¬(newCommentCondition zone = true) := by
        unfold newCommentCondition
        rw [hp]
        by_cases h1 : t = ""
        · simp [h1]
        · have h2 : lastCommentBody zone.commentThread = some t := by
            by_contra h2
            exact hcond ⟨h1, h2⟩
          simp [h2]
      rw [if_neg hcb]
      dsimp only
      rw [if_neg hcond]
      cases hs : storeGet cacheNew zone.owner with
      | none =>
        dsimp only
        unfold setCommentsPendingComment
        rw [hs]
      | some store =>
        dsimp only
        unfold setCommentsPendingComment
        rw [storeGet_storeSet_self]
        exact storeGet_storeDelete_self zone.commentThread.threadId store

/-- The resource filter applied to each phase list of a thread update
batch: the thread resource must be truthy and equal the editor URI. -/
def resourceMatches (uri : String) (t : CommentThread) : Bool :=
  match t.resource with
  | some s => !(s == "") && s == uri
  | none => false

/-- The live state the handler mutates: the displayed widgets and the
thread list of the matched owner commentInfo. -/
structure ControllerState where
  commentWidgets : List ReviewZoneWidget
  threads : List CommentThread
deriving DecidableEq, Repr

/-- Update the first element satisfying the predicate in place. -/
def updateFirst {A : Type} (p : A → Bool) (f : A → A) : List A → List A
  | [] => []
  | a :: rest => if p a then f a :: rest else a :: updateFirst p f rest

/-- Remove the first element satisfying the predicate (the splice at
indexOf of the first matched zone). -/
def removeFirst {A : Type} (p : A → Bool) : List A → List A
  | [] => []
  | a :: rest => if p a then rest else a :: removeFirst p rest

/-- The widget filter of the removed phase: same owner, same non-empty
threadId. -/
def removedZonePred (owner : String) (thread : CommentThread)
    (z : ReviewZoneWidget) : Bool :=
  z.owner == owner && z.commentThread.threadId == thread.threadId &&
    !(z.commentThread.threadId == "")

/-- The widget filter of the changed and added phases: same owner, same
threadId. -/
def changedZonePred (owner : String) (thread : CommentThread)
    (z : ReviewZoneWidget) : Bool :=
  z.owner == owner && z.commentThread.threadId == thread.threadId

/-- The added-phase de-duplication filter for a locally created
not-yet-submitted widget: same owner, handle -1, equal range. -/
def draftZonePred (owner : String) (thread : CommentThread)
    (z : ReviewZoneWidget) : Bool :=
  z.owner == owner && z.commentThread.commentThreadHandle == -1 &&
    equalsRange z.commentThread.range thread.range

/-- The removed phase for one thread: dispose the first matched widget and
drop the thread object from the owner thread list. -/
def applyRemoved (owner : String) (s : ControllerState)
    (thread : CommentThread) : ControllerState :=
  ⟨removeFirst (removedZonePred owner thread) s.commentWidgets,
   s.threads.filter (fun t => !(t == thread))⟩

/-- The changed phase for one thread: push the new thread data into the
first matched widget in place. -/
def applyChanged (owner : String) (s : ControllerState)
    (thread : CommentThread) : ControllerState :=
  ⟨updateFirst (changedZonePred owner thread)
    (fun z => { z with commentThread := thread }) s.commentWidgets,
   s.threads⟩

/-- The added phase for one thread: no-op on an existing widget of the
same id, else confirm a matching local draft widget in place, else create
a new widget with the resolved pending draft texts and append the thread
to the owner thread list. -/
def applyAdded (owner : String) (cacheNew : NewCommentCache)
    (continueOnText : CommentThread → Option String)
    (cacheEdits : EditsCache) (s : ControllerState)
    (thread : CommentThread) : ControllerState :=
  if s.commentWidgets.any (changedZonePred owner thread) then s
  else if s.commentWidgets.any (draftZonePred owner thread) then
    ⟨updateFirst (draftZonePred owner thread)
      (fun z => { z with commentThread := thread }) s.commentWidgets,
     s.threads⟩
  else
    let continueOnCommentText :=
      if thread.range.isSome then continueOnText thread else none
    let pendingCommentText :=
      match setCommentsPendingComment cacheNew owner thread with
      | some t => some t
      | none => continueOnCommentText
    let pendingEdits :=
      match storeGet cacheEdits owner with
      | some store => storeGet store thread.threadId
      | none => none
    ⟨s.commentWidgets ++
      [⟨owner, thread, pendingCommentText, pendingEdits.getD []⟩],
     s.threads ++ [thread]⟩

/-- A pending thread template request of a provider. -/
structure PendingCommentThread where
  owner : String
  uri : String
  range : Option Range
deriving DecidableEq, Repr

/-- One thread update batch of one owner. -/
structure CommentThreadChangedEvent where
  owner : String
  added : List CommentThread
  removed : List CommentThread
  changed : List CommentThread
  pending : List PendingCommentThread
deriving DecidableEq, Repr

/-- The onDidUpdateCommentThreads handler after the resource filters:
apply removed, then changed, then added, in that fixed order, and forward
the filtered pending threads to the template factory (returned as the
second component). -/
def onDidUpdateCommentThreads (uri : String) (cacheNew : NewCommentCache)
    (cacheEdits : EditsCache) (continueOnText : CommentThread → Option String)
    (s : ControllerState) (e : CommentThreadChangedEvent) :
    ControllerState × List PendingCommentThread :=
  let added := e.added.filter (resourceMatches uri)
  let removed := e.removed.filter (resourceMatches uri)
  let changed := e.changed.filter (resourceMatches uri)
  let pending := e.pending.filter (fun p => p.uri == uri)
  let s1 := removed.foldl (applyRemoved e.owner) s
  let s2 := changed.foldl (applyChanged e.owner) s1
  let s3 := added.foldl
    (applyAdded e.owner cacheNew continueOnText cacheEdits) s2
  (s3, pending)

theorem filter_removeFirst_nil {A : Type} (p : A → Bool) :
    ∀ l : List A, (l.filter p).length ≤ 1 →
    (removeFirst p l).filter p = [] := by
  intro l
  induction l with
  | nil => intro _; rfl
  | cons a rest ih =>
    intro h
    unfold removeFirst
    by_cases ha : p a = true
    · rw [if_pos ha]
      rw [List.filter_cons, if_pos ha] at h
      simp only [List.length_cons] at h
      have hlen : (List.filter p rest).length = 0 := by omega
      exact List.length_eq_zero.mp hlen
    · rw [if_neg ha]
      rw [List.filter_cons, if_neg ha] at h
      rw [List.filter_cons, if_neg ha]
      exact ih h

theorem removeFirst_mem {A : Type} (p : A → Bool) :
    ∀ (l : List A) (a : A), a ∈ removeFirst p l → a ∈ l := by
  intro l
  induction l with
  | nil => intro a ha; cases ha
  | cons b rest ih =>
    intro a ha
    unfold removeFirst at ha
    split at ha
    · exact List.mem_cons.mpr (Or.inr ha)
    · rcases List.mem_cons.mp ha with rfl | ha2
      · exact List.mem_cons_self a rest
      · exact List.mem_cons.mpr (Or.inr (ih a ha2))

theorem filter_eq_nil_any_false {A : Type} {p : A → Bool} {l : List A}
    (h : l.filter p = []) : l.any p = false := by
  rw [List.any_eq_false]
  intro a ha
  intro hpa
  have : a ∈ l.filter p := List.mem_filter.mpr ⟨ha, hpa⟩
  rw [h] at this
  exact List.not_mem_nil a this

/-- Claim C6: the batch phases are applied in the fixed order removed,
changed, added, pending (definitionally in onDidUpdateCommentThreads); as
a consequence, processing removed of T followed by added of T2 with the
same non-empty threadId in one batch leaves exactly one live widget for
that threadId, displaying T2, provided at most one widget for the id was
live before and no local draft widget collides with the range of T2. -/
theorem c6_removed_then_added (uri : String) (cacheNew : NewCommentCache)
    (cacheEdits : EditsCache)
    (continueOnText : CommentThread → Option String)
    (s : ControllerState) (owner : String) (tid : String)
    (T T2 : CommentThread)
    (htid : tid ≠ "")
    (hT : T.threadId = tid) (hT2 : T2.threadId = tid)
    (hrT : resourceMatches uri T = true)
    (hrT2 : resourceMatches uri T2 = true)
    (hone : (s.commentWidgets.filter (fun z =>
      z.owner == owner && z.commentThread.threadId == tid)).length ≤ 1)
    (hdraft : ∀ z ∈ s.commentWidgets, draftZonePred owner T2 z = false) :
    ((onDidUpdateCommentThreads uri cacheNew cacheEdits continueOnText s
        ⟨owner, [T2], [T], [], []⟩).1.commentWidgets.filter (fun z =>
      z.owner == owner && z.commentThread.threadId == tid)).map
        (fun z => z.commentThread) = [T2] := by
  unfold onDidUpdateCommentThreads
  dsimp only
  rw [List.filter_cons, if_pos hrT, List.filter_cons, if_pos hrT2]
  simp only [List.filter_nil, List.foldl_cons, List.foldl_nil]
  have hpred : ∀ z : ReviewZoneWidget, removedZonePred owner T z =
      (z.owner == owner && z.commentThread.threadId == tid) := by
    intro z
    unfold removedZonePred
    rw [hT]
    cases hb : (z.commentThread.threadId == tid) with
    | false => simp [hb]
    | true =>
      have hz : z.commentThread.threadId = tid := by simpa using hb
      simp [hb, hz, htid]
  have hcpred : ∀ z : ReviewZoneWidget, changedZonePred owner T2 z =
      (z.owner == owner && z.commentThread.threadId == tid) := by
    intro z
    unfold changedZonePred
    rw [hT2]
  unfold applyRemoved
  have hrfilter : ((removeFirst (removedZonePred owner T)
      s.commentWidgets).filter (fun z =>
      z.owner == owner && z.commentThread.threadId == tid)) = [] := by
    have he : removedZonePred owner T = (fun z : ReviewZoneWidget =>
        z.owner == owner && z.commentThread.threadId == tid) :=
      funext hpred
    rw [he]
    exact filter_removeFirst_nil _ s.commentWidgets hone
  unfold applyAdded
  dsimp only
  have hany1 : ((removeFirst (removedZonePred owner T)
      s.commentWidgets).any (changedZonePred owner T2)) = false := by
    have he : changedZonePred owner T2 = (fun z : ReviewZoneWidget =>
        z.owner == owner && z.commentThread.threadId == tid) :=
      funext hcpred
    rw [he]
    exact filter_eq_nil_any_false hrfilter
  have hany2 : ((removeFirst (removedZonePred owner T)
      s.commentWidgets).any (draftZonePred owner T2)) = false := by
    rw [List.any_eq_false]
    intro z hz
    have := hdraft z (removeFirst_mem _ s.commentWidgets z hz)
    simp [this]
  rw [hany1, hany2]
  have hff : ¬(false = true) := by simp
  rw [if_neg hff, if_neg hff]
  dsimp only
  rw [List.filter_append, hrfilter, List.nil_append]
  rw [List.filter_cons]
  dsimp only
  rw [hT2]
  have hcond2 : ((owner == owner) && (tid == tid)) = true := by simp
  rw [if_pos hcond2]
  simp

def witnessThreadOld : CommentThread :=
  ⟨"threadOne", 1, some "uriA", some ⟨1, 1, 1, 1⟩, [⟨"a"⟩], false⟩

def witnessThreadNew : CommentThread :=
  ⟨"threadOne", 2, some "uriA", some ⟨1, 1, 1, 1⟩, [⟨"a"⟩, ⟨"b"⟩], false⟩

def witnessState : ControllerState :=
  ⟨[⟨"ownerA", witnessThreadOld, none, []⟩], [witnessThreadOld]⟩

/-- Witness for the removed-then-added claim: a batch removing the old
thread and adding its replacement under the same id leaves exactly one
widget displaying the replacement. -/
theorem c6_removed_then_added_witness :
    ((onDidUpdateCommentThreads "uriA" [] [] (fun _ => none) witnessState
        ⟨"ownerA", [witnessThreadNew], [witnessThreadOld], [],
          []⟩).1.commentWidgets.filter
      (fun z => z.owner == "ownerA" &&
        z.commentThread.threadId == "threadOne")).map
      (fun z => z.commentThread) = [witnessThreadNew] :=
  c6_removed_then_added "uriA" [] [] (fun _ => none) witnessState "ownerA"
    "threadOne" witnessThreadOld witnessThreadNew (by decide) rfl rfl
    (by decide) (by decide) (by decide) (by decide)

end Comments
